import Mathlib

/- Verification development for the request pipeline of the
   mcp-server-requests repository (src/mcp_server_requests/request.py).

   The pipeline is shallowly embedded: Python strings are modelled as
   `List Char` (sequences of unicode scalar values; lone surrogates are not
   modelled), byte strings as `List Nat` with entries < 256, exceptions as an
   inductive type of exception values, fallible functions return `Except`,
   and the network is an explicit oracle parameter mapping an outbound
   request to an outcome.  The functions of `urllib.parse` used by
   `merge_query_to_url` (urlparse, parse_qsl, urlencode, urlunparse) are
   embedded following their CPython implementations. -/

/-- Python strings are modelled as lists of unicode scalar values. -/
abbrev PyStr := List Char

/-- Injection of Lean string literals into the model. -/
def pys (s : String) : PyStr := s.toList

/-- ASCII uppercase letter test. -/
def isUpperA (c : Char) : Bool := 65 ≤ c.toNat && c.toNat ≤ 90

/-- ASCII lowercase letter test. -/
def isLowerA (c : Char) : Bool := 97 ≤ c.toNat && c.toNat ≤ 122

/-- ASCII digit test. -/
def isDigitA (c : Char) : Bool := 48 ≤ c.toNat && c.toNat ≤ 57

/-- ASCII letter test. -/
def isAlphaA (c : Char) : Bool := isUpperA c || isLowerA c

/-- Python `str.lower`, modelled on the ASCII range (identical to CPython
    there; non-ASCII case mappings, which never arise in URL schemes, are
    not modelled). -/
def lowerAscii (c : Char) : Char :=
  if 65 ≤ c.toNat ∧ c.toNat ≤ 90 then Char.ofNat (c.toNat + 32) else c

/-- Python `str.upper`, modelled on the ASCII range. -/
def upperAscii (c : Char) : Char :=
  if 97 ≤ c.toNat ∧ c.toNat ≤ 122 then Char.ofNat (c.toNat - 32) else c

/-- Python `s.split(sep, 1)` when `sep` occurs: the parts before and after
    the first occurrence of `sep`; `none` when `sep` does not occur. -/
def splitFirst (sep : Char) : PyStr → Option (PyStr × PyStr)
  | [] => none
  | c :: t =>
    if c = sep then some ([], t)
    else
      match splitFirst sep t with
      | none => none
      | some (a, b) => some (c :: a, b)

/-- Python `s.split(sep)` for a one-character separator. -/
def splitSep (sep : Char) : PyStr → List PyStr
  | [] => [[]]
  | c :: t =>
    match splitSep sep t with
    | [] => [[]]
    | r :: rs => if c = sep then [] :: r :: rs else (c :: r) :: rs

/-- The list of distinct elements of `l` in first-occurrence order: the
    model of a Python `set` built from `l` (membership is the faithful
    part; Python does not fix an iteration order). -/
def setList {α : Type} [DecidableEq α] (l : List α) : List α :=
  l.foldl (fun acc a => if a ∈ acc then acc else acc ++ [a]) []

theorem char_toNat_ofNat {n : Nat} (h : n.isValidChar) : (Char.ofNat n).toNat = n := by
  simp only [Char.ofNat, dif_pos h, Char.ofNatAux, Char.toNat]
  simp [UInt32.toNat]

theorem char_eq_of_toNat_eq {c d : Char} (h : c.toNat = d.toNat) : c = d :=
  Char.eq_of_val_eq (UInt32.toNat.inj h)

theorem splitFirst_eq_none {sep : Char} {l : PyStr} (h : sep ∉ l) : splitFirst sep l = none := by
  induction l with
  | nil => rfl
  | cons c t ih =>
    simp only [List.mem_cons, not_or] at h
    simp [splitFirst, Ne.symm h.1, ih h.2]

theorem splitFirst_append {sep : Char} (a b : PyStr) (h : sep ∉ a) :
    splitFirst sep (a ++ sep :: b) = some (a, b) := by
  induction a with
  | nil => simp [splitFirst]
  | cons c t ih =>
    simp only [List.mem_cons, not_or] at h
    simp [splitFirst, Ne.symm h.1, ih h.2]

theorem splitFirst_eq_some {sep : Char} {l a b : PyStr}
    (h : splitFirst sep l = some (a, b)) : l = a ++ sep :: b ∧ sep ∉ a := by
  induction l generalizing a b with
  | nil => simp [splitFirst] at h
  | cons c t ih =>
    by_cases hc : c = sep
    · subst hc
      simp [splitFirst] at h
      rcases h with ⟨rfl, rfl⟩
      simp
    · simp only [splitFirst, if_neg hc] at h
      match ht : splitFirst sep t with
      | none => rw [ht] at h; simp at h
      | some (x, y) =>
        rw [ht] at h
        simp only [Option.some.injEq, Prod.mk.injEq] at h
        obtain ⟨h1, h2⟩ := h
        subst h2
        have hs := ih ht
        rw [← h1]
        constructor
        · simp [hs.1]
        · simp only [List.mem_cons, not_or]
          exact ⟨fun e => hc e.symm, hs.2⟩

theorem splitFirst_append_left {sep : Char} {a x y : PyStr} (w : PyStr)
    (h : splitFirst sep a = some (x, y)) :
    splitFirst sep (a ++ w) = some (x, y ++ w) := by
  obtain ⟨rfl, hx⟩ := splitFirst_eq_some h
  rw [List.append_assoc]
  simpa using splitFirst_append x (y ++ w) hx

theorem splitSep_ne_nil (sep : Char) (l : PyStr) : splitSep sep l ≠ [] := by
  cases l with
  | nil => simp [splitSep]
  | cons c t =>
    simp only [splitSep]
    match h : splitSep sep t with
    | [] => simp
    | r :: rs => by_cases hc : c = sep <;> simp [hc]

theorem splitSep_no_sep {sep : Char} {s : PyStr} (h : sep ∉ s) : splitSep sep s = [s] := by
  induction s with
  | nil => rfl
  | cons c t ih =>
    simp only [List.mem_cons, not_or] at h
    simp [splitSep, ih h.2, Ne.symm h.1]

theorem splitSep_append {sep : Char} {s : PyStr} (w : PyStr) (h : sep ∉ s) :
    splitSep sep (s ++ sep :: w) = s :: splitSep sep w := by
  induction s with
  | nil =>
    simp only [List.nil_append, splitSep]
    match hw : splitSep sep w with
    | [] => exact absurd hw (splitSep_ne_nil sep w)
    | r :: rs => simp
  | cons c t ih =>
    simp only [List.mem_cons, not_or] at h
    have ht := ih h.2
    simp only [List.cons_append, splitSep, List.append_eq]
    rw [ht]
    simp [Ne.symm h.1]

theorem mem_foldl_setStep {α : Type} [DecidableEq α] (a : α) (l acc : List α) :
    a ∈ l.foldl (fun acc a => if a ∈ acc then acc else acc ++ [a]) acc ↔ a ∈ acc ∨ a ∈ l := by
  induction l generalizing acc with
  | nil => simp
  | cons x t ih =>
    simp only [List.foldl_cons, ih]
    by_cases hx : x ∈ acc
    · simp only [if_pos hx]
      constructor
      · rintro (h | h)
        · exact Or.inl h
        · exact Or.inr (List.mem_cons_of_mem _ h)
      · rintro (h | h)
        · exact Or.inl h
        · rcases List.mem_cons.mp h with rfl | h
          · exact Or.inl hx
          · exact Or.inr h
    · simp only [if_neg hx, List.mem_append, List.mem_singleton]
      constructor
      · rintro ((h | rfl) | h)
        · exact Or.inl h
        · exact Or.inr (List.mem_cons_self _ _)
        · exact Or.inr (List.mem_cons_of_mem _ h)
      · rintro (h | h)
        · exact Or.inl (Or.inl h)
        · rcases List.mem_cons.mp h with rfl | h
          · exact Or.inl (Or.inr rfl)
          · exact Or.inr h

theorem mem_setList {α : Type} [DecidableEq α] (a : α) (l : List α) :
    a ∈ setList l ↔ a ∈ l := by
  simp [setList, mem_foldl_setStep]


/-- UTF-8 encoding of one unicode scalar value (the encoder underlying
    Python `str.encode("utf-8")`). -/
def utf8EncodeCp (n : Nat) : List Nat :=
  if n < 0x80 then [n]
  else if n < 0x800 then [0xC0 + n / 64, 0x80 + n % 64]
  else if n < 0x10000 then [0xE0 + n / 4096, 0x80 + n / 64 % 64, 0x80 + n % 64]
  else [0xF0 + n / 262144, 0x80 + n / 4096 % 64, 0x80 + n / 64 % 64, 0x80 + n % 64]

/-- Python `s.encode("utf-8")` for a modelled string. -/
def utf8Bytes (s : List Char) : List Nat := s.flatMap (fun c => utf8EncodeCp c.toNat)

/-- UTF-8 continuation byte test. -/
def contByte (b : Nat) : Bool := 0x80 ≤ b && b < 0xC0

/-- Decoding of one UTF-8 scalar value from the head of a byte string,
    rejecting truncated sequences, overlong forms, surrogates and values
    beyond U+10FFFF, exactly as CPython's utf-8 codec does. -/
def utf8DecodeOne : List Nat → Option (Nat × List Nat)
  | [] => none
  | b :: bs =>
    if b < 0x80 then some (b, bs)
    else if b < 0xC2 then none
    else if b < 0xE0 then
      match bs with
      | b1 :: bs1 => if contByte b1 then some ((b - 0xC0) * 64 + (b1 - 0x80), bs1) else none
      | [] => none
    else if b < 0xF0 then
      match bs with
      | b1 :: b2 :: bs2 =>
        if contByte b1 && contByte b2 then
          if (b - 0xE0) * 4096 + (b1 - 0x80) * 64 + (b2 - 0x80) < 0x800 ||
             (0xD800 ≤ (b - 0xE0) * 4096 + (b1 - 0x80) * 64 + (b2 - 0x80) &&
              (b - 0xE0) * 4096 + (b1 - 0x80) * 64 + (b2 - 0x80) < 0xE000) then none
          else some ((b - 0xE0) * 4096 + (b1 - 0x80) * 64 + (b2 - 0x80), bs2)
        else none
      | _ => none
    else if b < 0xF5 then
      match bs with
      | b1 :: b2 :: b3 :: bs3 =>
        if contByte b1 && contByte b2 && contByte b3 then
          if (b - 0xF0) * 262144 + (b1 - 0x80) * 4096 + (b2 - 0x80) * 64 + (b3 - 0x80) < 0x10000 ||
             0x110000 ≤ (b - 0xF0) * 262144 + (b1 - 0x80) * 4096 + (b2 - 0x80) * 64 + (b3 - 0x80) then none
          else some ((b - 0xF0) * 262144 + (b1 - 0x80) * 4096 + (b2 - 0x80) * 64 + (b3 - 0x80), bs3)
        else none
      | _ => none
    else none

theorem utf8DecodeOne_length {l : List Nat} {n : Nat} {rest : List Nat}
    (h : utf8DecodeOne l = some (n, rest)) : rest.length < l.length := by
  cases l with
  | nil => simp [utf8DecodeOne] at h
  | cons b bs =>
    simp only [utf8DecodeOne] at h
    repeat' split at h
    all_goals simp_all
    all_goals omega

/-- Fuel-indexed worker for `utf8DecodeAll` (the fuel only serves
    termination; `utf8DecodeAll` supplies enough). -/
def utf8DecodeAllAux : Nat → List Nat → Option (List Char)
  | _, [] => some []
  | 0, _ :: _ => none
  | fuel + 1, b :: bs =>
    match utf8DecodeOne (b :: bs) with
    | some (n, rest) => (utf8DecodeAllAux fuel rest).map (fun cs => Char.ofNat n :: cs)
    | none => none

/-- Python `bytes.decode("utf-8")` with strict errors: `none` exactly on
    invalid UTF-8 input. -/
def utf8DecodeAll (l : List Nat) : Option (List Char) := utf8DecodeAllAux l.length l

/-- Fuel-indexed worker for `utf8DecodeReplace`. -/
def utf8DecodeReplaceAux : Nat → List Nat → List Char
  | _, [] => []
  | 0, _ :: _ => []
  | fuel + 1, b :: bs =>
    match utf8DecodeOne (b :: bs) with
    | some (n, rest) => Char.ofNat n :: utf8DecodeReplaceAux fuel rest
    | none => Char.ofNat 0xFFFD :: utf8DecodeReplaceAux fuel bs

/-- Python `bytes.decode("utf-8", errors="replace")`: invalid input bytes
    are replaced by U+FFFD.  On invalid input CPython replaces a maximal
    invalid subpart per U+FFFD while this model may emit one U+FFFD per
    skipped byte; on valid input (the only case the theorems below rely
    on) the two agree. -/
def utf8DecodeReplace (l : List Nat) : List Char := utf8DecodeReplaceAux l.length l

theorem utf8DecodeAllAux_fuel {f g : Nat} : ∀ {l : List Nat}, l.length ≤ f → l.length ≤ g →
    utf8DecodeAllAux f l = utf8DecodeAllAux g l := by
  induction f generalizing g with
  | zero =>
    intro l hf _
    match l with
    | [] => cases g <;> rfl
    | _ :: _ => simp at hf
  | succ f ih =>
    intro l hf hg
    match l with
    | [] => cases g <;> rfl
    | b :: bs =>
      match g with
      | 0 => simp at hg
      | g + 1 =>
        simp only [utf8DecodeAllAux]
        match h : utf8DecodeOne (b :: bs) with
        | some (n, rest) =>
          have hl := utf8DecodeOne_length h
          simp only [List.length_cons] at hf hg hl
          exact congrArg (Option.map (fun cs => Char.ofNat n :: cs)) (ih (by omega) (by omega))
        | none => rfl

theorem utf8DecodeAll_cons {l : List Nat} {n : Nat} {rest : List Nat}
    (h : utf8DecodeOne l = some (n, rest)) :
    utf8DecodeAll l = (utf8DecodeAll rest).map (fun cs => Char.ofNat n :: cs) := by
  match l with
  | [] => simp [utf8DecodeOne] at h
  | b :: bs =>
    have hl := utf8DecodeOne_length h
    simp only [utf8DecodeAll, List.length_cons, utf8DecodeAllAux, h]
    rw [utf8DecodeAllAux_fuel (by simp at hl ⊢; omega) (le_refl _)]

theorem utf8DecodeReplaceAux_fuel {f g : Nat} : ∀ {l : List Nat}, l.length ≤ f → l.length ≤ g →
    utf8DecodeReplaceAux f l = utf8DecodeReplaceAux g l := by
  induction f generalizing g with
  | zero =>
    intro l hf _
    match l with
    | [] => cases g <;> rfl
    | _ :: _ => simp at hf
  | succ f ih =>
    intro l hf hg
    match l with
    | [] => cases g <;> rfl
    | b :: bs =>
      match g with
      | 0 => simp at hg
      | g + 1 =>
        simp only [utf8DecodeReplaceAux]
        match h : utf8DecodeOne (b :: bs) with
        | some (n, rest) =>
          have hl := utf8DecodeOne_length h
          simp only [List.length_cons] at hf hg hl
          exact congrArg (List.cons (Char.ofNat n)) (ih (by omega) (by omega))
        | none =>
          simp only [List.length_cons] at hf hg
          exact congrArg (List.cons (Char.ofNat 0xFFFD)) (ih (by omega) (by omega))

theorem utf8DecodeReplace_cons {l : List Nat} {n : Nat} {rest : List Nat}
    (h : utf8DecodeOne l = some (n, rest)) :
    utf8DecodeReplace l = Char.ofNat n :: utf8DecodeReplace rest := by
  match l with
  | [] => simp [utf8DecodeOne] at h
  | b :: bs =>
    have hl := utf8DecodeOne_length h
    simp only [utf8DecodeReplace, List.length_cons, utf8DecodeReplaceAux, h]
    rw [utf8DecodeReplaceAux_fuel (by simp at hl ⊢; omega) (le_refl _)]

example : utf8DecodeAll [0x41, 0xC3, 0xA9] = some ['A', 'é'] := by decide
example : utf8DecodeAll [0xFF] = none := by decide
example : utf8DecodeReplace [0x41, 0xFF, 0x42] = ['A', Char.ofNat 0xFFFD, 'B'] := by decide
example : utf8DecodeAll [0xED, 0xA0, 0x80] = none := by decide
example : utf8DecodeAll [0xC0, 0xAF] = none := by decide

theorem char_valid_nat (c : Char) : c.toNat < 0xD800 ∨ (0xDFFF < c.toNat ∧ c.toNat < 0x110000) := by
  have h := c.valid
  simp only [isValidChar, UInt32.lt_def, BitVec.lt_def] at h
  exact h

theorem utf8DecodeOne_byte1 {b : Nat} (h : b < 0x80) (rest : List Nat) :
    utf8DecodeOne (b :: rest) = some (b, rest) := by
  simp only [utf8DecodeOne]
  rw [if_pos h]

theorem utf8DecodeOne_byte2 {x : Nat} (h1 : 0x80 ≤ x) (h2 : x < 0x800) (rest : List Nat) :
    utf8DecodeOne ((0xC0 + x / 64) :: (0x80 + x % 64) :: rest) = some (x, rest) := by
  simp only [utf8DecodeOne, contByte, Bool.and_eq_true, decide_eq_true_eq]
  rw [if_neg (by omega), if_neg (by omega), if_pos (by omega), if_pos (by omega)]
  simp only [Option.some.injEq, Prod.mk.injEq]
  exact ⟨by omega, trivial⟩

theorem utf8DecodeOne_byte3 {x : Nat} (h1 : 0x800 ≤ x) (h2 : x < 0x10000)
    (hs : ¬(0xD800 ≤ x ∧ x < 0xE000)) (rest : List Nat) :
    utf8DecodeOne ((0xE0 + x / 4096) :: (0x80 + x / 64 % 64) :: (0x80 + x % 64) :: rest) =
      some (x, rest) := by
  simp only [utf8DecodeOne, contByte, Bool.and_eq_true, Bool.or_eq_true, decide_eq_true_eq]
  rw [if_neg (by omega), if_neg (by omega), if_neg (by omega), if_pos (by omega),
    if_pos (by omega), if_neg (by omega)]
  simp only [Option.some.injEq, Prod.mk.injEq]
  exact ⟨by omega, trivial⟩

theorem utf8DecodeOne_byte4 {x : Nat} (h1 : 0x10000 ≤ x) (h2 : x < 0x110000) (rest : List Nat) :
    utf8DecodeOne ((0xF0 + x / 262144) :: (0x80 + x / 4096 % 64) :: (0x80 + x / 64 % 64) ::
      (0x80 + x % 64) :: rest) = some (x, rest) := by
  simp only [utf8DecodeOne, contByte, Bool.and_eq_true, Bool.or_eq_true, decide_eq_true_eq]
  rw [if_neg (by omega), if_neg (by omega), if_neg (by omega), if_neg (by omega),
    if_pos (by omega), if_pos (by omega), if_neg (by omega)]
  simp only [Option.some.injEq, Prod.mk.injEq]
  exact ⟨by omega, trivial⟩

theorem utf8DecodeOne_encode (c : Char) (rest : List Nat) :
    utf8DecodeOne (utf8EncodeCp c.toNat ++ rest) = some (c.toNat, rest) := by
  have hv := char_valid_nat c
  by_cases h1 : c.toNat < 0x80
  · simp only [utf8EncodeCp, if_pos h1, List.cons_append, List.nil_append]
    exact utf8DecodeOne_byte1 h1 rest
  · by_cases h2 : c.toNat < 0x800
    · simp only [utf8EncodeCp, if_neg h1, if_pos h2, List.cons_append, List.nil_append]
      exact utf8DecodeOne_byte2 (by omega) h2 rest
    · by_cases h3 : c.toNat < 0x10000
      · simp only [utf8EncodeCp, if_neg h1, if_neg h2, if_pos h3, List.cons_append,
          List.nil_append]
        exact utf8DecodeOne_byte3 (by omega) h3 (by omega) rest
      · simp only [utf8EncodeCp, if_neg h1, if_neg h2, if_neg h3, List.cons_append,
          List.nil_append]
        exact utf8DecodeOne_byte4 (by omega) (by omega) rest

theorem utf8Bytes_nil : utf8Bytes [] = [] := rfl

theorem utf8Bytes_cons (c : Char) (t : List Char) :
    utf8Bytes (c :: t) = utf8EncodeCp c.toNat ++ utf8Bytes t := by
  simp [utf8Bytes]

theorem utf8DecodeReplace_encode (s : List Char) :
    utf8DecodeReplace (utf8Bytes s) = s := by
  induction s with
  | nil => rfl
  | cons c t ih =>
    rw [utf8Bytes_cons, utf8DecodeReplace_cons (utf8DecodeOne_encode c _), ih,
      Char.ofNat_toNat]

theorem utf8EncodeCp_lt_256 {n : Nat} (hn : n < 0x110000) {b : Nat} (hb : b ∈ utf8EncodeCp n) : b < 256 := by
  simp only [utf8EncodeCp] at hb
  split_ifs at hb with h1 h2 h3
  all_goals simp only [List.mem_cons, List.mem_singleton, List.not_mem_nil, or_false] at hb
  all_goals
    first
      | (obtain rfl := hb; omega)
      | (obtain rfl | rfl := hb <;> omega)
      | (obtain rfl | rfl | rfl := hb <;> omega)
      | (obtain rfl | rfl | rfl | rfl := hb <;> omega)

theorem utf8EncodeCp_ne_nil (n : Nat) : utf8EncodeCp n ≠ [] := by
  simp only [utf8EncodeCp]
  split_ifs <;> simp

/-- The characters `urllib.parse.quote` never percent-encodes: the
    `_ALWAYS_SAFE` set (ASCII letters, digits, `_.-~`).  `urlencode` calls
    its `quote_via` with `safe=""`, so nothing is added to this set. -/
def safeChar (c : Char) : Bool :=
  isAlphaA c || isDigitA c || c = '_' || c = '.' || c = '-' || c = '~'

/-- Uppercase hexadecimal digit for a value below 16, as `quote` emits. -/
def hexUpper (n : Nat) : Char := Char.ofNat (if n < 10 then 48 + n else 55 + n)

/-- Hexadecimal value of a character, if it is a hex digit (`unquote`
    accepts both cases). -/
def hexVal (c : Char) : Option Nat :=
  if 48 ≤ c.toNat ∧ c.toNat ≤ 57 then some (c.toNat - 48)
  else if 65 ≤ c.toNat ∧ c.toNat ≤ 70 then some (c.toNat - 55)
  else if 97 ≤ c.toNat ∧ c.toNat ≤ 102 then some (c.toNat - 87)
  else none

/-- The three characters `%XX` escaping one byte. -/
def percentByte (b : Nat) : PyStr := ['%', hexUpper (b / 16), hexUpper (b % 16)]

/-- The maximal leading run of `%XX` byte escapes of a string, and the
    remainder: `unquote` decodes each such run as one UTF-8 byte string. -/
def percentRun : PyStr → (List Nat × PyStr)
  | '%' :: c1 :: c2 :: rest =>
    match hexVal c1, hexVal c2 with
    | some hi, some lo =>
      match percentRun rest with
      | (bs, r) => ((hi * 16 + lo) :: bs, r)
    | _, _ => ([], '%' :: c1 :: c2 :: rest)
  | l => ([], l)

/-- One character of `quote_plus(s, safe="")` output: a space becomes `+`,
    a safe character stands for itself, anything else is percent-encoded
    through UTF-8. -/
def quotePlusChar (c : Char) : PyStr :=
  if c = ' ' then ['+']
  else if safeChar c then [c]
  else (utf8EncodeCp c.toNat).flatMap percentByte

/-- Python `urllib.parse.quote_plus(s, safe="")`, the `quote_via` that
    `urlencode` applies to stringified keys and values. -/
def quote_plus (s : PyStr) : PyStr := s.flatMap quotePlusChar

/-- Python `s.replace("+", " ")`, the first step of `unquote_plus` and of
    `parse_qsl`'s decoding of names and values. -/
def plusToSpace (s : PyStr) : PyStr := s.map (fun c => if c = '+' then ' ' else c)

/-- Fuel-indexed worker for `unquote` (fuel only serves termination). -/
def unquoteAux : Nat → PyStr → PyStr
  | _, [] => []
  | 0, l => l
  | fuel + 1, c :: rest =>
    if c = '%' then
      match rest with
      | c1 :: c2 :: rest2 =>
        match hexVal c1, hexVal c2 with
        | some hi, some lo =>
          match percentRun rest2 with
          | (bs, r) => utf8DecodeReplace ((hi * 16 + lo) :: bs) ++ unquoteAux fuel r
        | _, _ => '%' :: unquoteAux fuel rest
      | _ => '%' :: unquoteAux fuel rest
    else c :: unquoteAux fuel rest

/-- Python `urllib.parse.unquote(s)` (encoding "utf-8", errors "replace"):
    maximal runs of `%XX` escapes are decoded as UTF-8 byte strings, a `%`
    not followed by two hex digits is literal, and other characters stand
    for themselves. -/
def unquote (s : PyStr) : PyStr := unquoteAux s.length s

/-- Python `urllib.parse.unquote_plus`. -/
def unquote_plus (s : PyStr) : PyStr := unquote (plusToSpace s)

theorem hexVal_hexUpper : ∀ n < 16, hexVal (hexUpper n) = some n := by decide

theorem safeChar_hexUpper : ∀ n < 16, safeChar (hexUpper n) = true := by decide

theorem ne_of_safe {c d : Char} (h : safeChar c = true) (hd : safeChar d = false) : c ≠ d := by
  intro e
  rw [e, hd] at h
  exact Bool.noConfusion h

theorem percentRun_stop {z : PyStr} (h : z.head? ≠ some '%') : percentRun z = ([], z) := by
  match z with
  | [] => rfl
  | c :: t =>
    simp only [List.head?] at h
    have hc : c ≠ '%' := fun e => h (by rw [e])
    match t with
    | [] => simp [percentRun]
    | [c1] => simp [percentRun]
    | c1 :: c2 :: rest => simp [percentRun, hc]

theorem percentRun_bytes : ∀ (bs : List Nat), (∀ b ∈ bs, b < 256) → ∀ {z : PyStr},
    z.head? ≠ some '%' → percentRun (bs.flatMap percentByte ++ z) = (bs, z) := by
  intro bs
  induction bs with
  | nil => intro _ z hz; simp only [List.flatMap_nil, List.nil_append]; exact percentRun_stop hz
  | cons b rest ih =>
    intro hlt z hz
    have hb : b < 256 := hlt b (List.mem_cons_self _ _)
    simp only [List.flatMap_cons, percentByte, List.cons_append, List.append_assoc]
    simp only [percentRun, hexVal_hexUpper (b / 16) (by omega), hexVal_hexUpper (b % 16) (by omega),
      List.nil_append]
    rw [ih (fun x hx => hlt x (List.mem_cons_of_mem _ hx)) hz]
    simp only [Prod.mk.injEq]
    refine ⟨?_, trivial⟩
    congr 1
    omega

theorem percentRun_snd_le (l : PyStr) : (percentRun l).2.length ≤ l.length := by
  induction l using percentRun.induct with
  | case1 c1 c2 rest hi lo h2 h1 bs r hpr ih =>
    simp only [percentRun, h1, h2, hpr]
    rw [hpr] at ih
    simp only [List.length_cons]
    simp only [List.length_cons] at ih
    omega
  | case2 c1 c2 rest hbad =>
    match hx1 : hexVal c1, hx2 : hexVal c2 with
    | some hi, some lo => exact absurd (hbad hi lo hx1 hx2) (fun h => h)
    | some hi, none => simp [percentRun, hx1, hx2]
    | none, some lo => simp [percentRun, hx1, hx2]
    | none, none => simp [percentRun, hx1, hx2]
  | case3 l hne =>
    match l with
    | [] => simp [percentRun]
    | [c] => simp [percentRun]
    | [c, c1] => simp [percentRun]
    | c :: c1 :: c2 :: rest =>
      have hc : c ≠ '%' := fun e => hne c1 c2 rest (by rw [e])
      simp [percentRun, hc]

theorem unquoteAux_nil (f : Nat) : unquoteAux f [] = [] := by
  cases f <;> rfl

theorem unquoteAux_fuel {f g : Nat} : ∀ {l : PyStr}, l.length ≤ f → l.length ≤ g →
    unquoteAux f l = unquoteAux g l := by
  induction f generalizing g with
  | zero =>
    intro l hf _
    cases l with
    | nil => cases g <;> rfl
    | cons c rest => simp at hf
  | succ f ih =>
    intro l hf hg
    cases l with
    | nil => cases g <;> rfl
    | cons c rest =>
      cases g with
      | zero => simp at hg
      | succ g =>
        simp only [List.length_cons] at hf hg
        simp only [unquoteAux]
        by_cases hc : c = '%'
        · rw [if_pos hc, if_pos hc]
          cases rest with
          | nil =>
            show '%' :: unquoteAux f [] = '%' :: unquoteAux g []
            rw [unquoteAux_nil, unquoteAux_nil]
          | cons c1 rest1 =>
            cases rest1 with
            | nil =>
              show '%' :: unquoteAux f [c1] = '%' :: unquoteAux g [c1]
              simp only [List.length_cons] at hf hg
              exact congrArg (List.cons '%') (ih (by simp; omega) (by simp; omega))
            | cons c2 rest2 =>
              simp only [List.length_cons] at hf hg
              match hx1 : hexVal c1, hx2 : hexVal c2 with
              | some hi, some lo =>
                simp only [hx1, hx2]
                have hr := percentRun_snd_le rest2
                exact congrArg (utf8DecodeReplace ((hi * 16 + lo) :: (percentRun rest2).1) ++ ·)
                  (ih (by omega) (by omega))
              | some hi, none =>
                simp only [hx1, hx2]
                exact congrArg (List.cons '%') (ih (by simp; omega) (by simp; omega))
              | none, some lo =>
                simp only [hx1, hx2]
                exact congrArg (List.cons '%') (ih (by simp; omega) (by simp; omega))
              | none, none =>
                simp only [hx1, hx2]
                exact congrArg (List.cons '%') (ih (by simp; omega) (by simp; omega))
        · rw [if_neg hc, if_neg hc]
          exact congrArg (List.cons c) (ih (by omega) (by omega))

theorem unquote_nil : unquote [] = [] := rfl

theorem unquote_cons_lit {c : Char} (hc : c ≠ '%') (t : PyStr) :
    unquote (c :: t) = c :: unquote t := by
  simp only [unquote, List.length_cons, unquoteAux, if_neg hc]

theorem unquote_pct {c1 c2 : Char} {hi lo : Nat} (t : PyStr)
    (h1 : hexVal c1 = some hi) (h2 : hexVal c2 = some lo) :
    unquote ('%' :: c1 :: c2 :: t) =
      utf8DecodeReplace ((hi * 16 + lo) :: (percentRun t).1) ++ unquote (percentRun t).2 := by
  have e : ('%' :: c1 :: c2 :: t).length = t.length + 3 := by simp
  rw [unquote, e]
  simp only [unquoteAux, if_pos rfl, h1, h2]
  match hpr : percentRun t with
  | (bs, r) =>
    have hr := percentRun_snd_le t
    rw [hpr] at hr
    simp only [Prod.snd] at hr
    simp only [unquote]
    exact congrArg (utf8DecodeReplace ((hi * 16 + lo) :: bs) ++ ·)
      (unquoteAux_fuel (by omega) (by omega))

theorem qpc_space : quotePlusChar ' ' = ['+'] := by simp [quotePlusChar]

theorem qpc_safe {c : Char} (h : safeChar c = true) : quotePlusChar c = [c] := by
  have hs : c ≠ ' ' := ne_of_safe h (by decide)
  simp [quotePlusChar, hs, h]

theorem qpc_notsafe {c : Char} (h1 : safeChar c = false) (h2 : c ≠ ' ') :
    quotePlusChar c = (utf8EncodeCp c.toNat).flatMap percentByte := by
  simp [quotePlusChar, h1, h2]

theorem char_toNat_lt (c : Char) : c.toNat < 0x110000 := by
  rcases char_valid_nat c with h | h <;> omega

theorem utf8Bytes_lt_256 {s : PyStr} {b : Nat} (hb : b ∈ utf8Bytes s) : b < 256 := by
  simp only [utf8Bytes, List.mem_flatMap] at hb
  obtain ⟨c, _, hc⟩ := hb
  exact utf8EncodeCp_lt_256 (char_toNat_lt c) hc

theorem percentByte_no_plus {b : Nat} (hb : b < 256) {x : Char} (hx : x ∈ percentByte b) :
    x ≠ '+' := by
  simp only [percentByte, List.mem_cons, List.not_mem_nil, or_false] at hx
  rcases hx with rfl | rfl | rfl
  · decide
  · exact ne_of_safe (safeChar_hexUpper _ (by omega)) (by decide)
  · exact ne_of_safe (safeChar_hexUpper _ (by omega)) (by decide)

theorem plusToSpace_no_plus {s : PyStr} (h : ∀ c ∈ s, c ≠ '+') : plusToSpace s = s := by
  induction s with
  | nil => rfl
  | cons c t ih =>
    simp only [plusToSpace, List.map_cons]
    rw [if_neg (h c (List.mem_cons_self _ _))]
    have := ih (fun x hx => h x (List.mem_cons_of_mem _ hx))
    simp only [plusToSpace] at this
    rw [this]

theorem quote_unsafe_run : ∀ (u : PyStr), (∀ c ∈ u, safeChar c = false ∧ c ≠ ' ') →
    plusToSpace (quote_plus u) = (utf8Bytes u).flatMap percentByte := by
  intro u
  induction u with
  | nil => intro _; rfl
  | cons c t ih =>
    intro h
    have hc := h c (List.mem_cons_self _ _)
    simp only [quote_plus, List.flatMap_cons, plusToSpace, List.map_append]
    have h1 : (quotePlusChar c).map (fun c => if c = '+' then ' ' else c) = quotePlusChar c := by
      rw [qpc_notsafe hc.1 hc.2]
      have := plusToSpace_no_plus (s := (utf8EncodeCp c.toNat).flatMap percentByte) ?no
      · simpa [plusToSpace] using this
      · intro x hx
        simp only [List.mem_flatMap] at hx
        obtain ⟨b, hb, hxb⟩ := hx
        exact percentByte_no_plus (utf8EncodeCp_lt_256 (char_toNat_lt c) hb) hxb
    rw [h1, qpc_notsafe hc.1 hc.2]
    have ht := ih (fun x hx => h x (List.mem_cons_of_mem _ hx))
    simp only [quote_plus, plusToSpace] at ht
    rw [ht, utf8Bytes_cons, List.flatMap_append]

theorem unquote_percentHex : ∀ (bs : List Nat), bs ≠ [] → (∀ b ∈ bs, b < 256) →
    ∀ {z : PyStr}, z.head? ≠ some '%' →
    unquote (bs.flatMap percentByte ++ z) = utf8DecodeReplace bs ++ unquote z := by
  intro bs hne hlt z hz
  match bs with
  | b :: bs' =>
    have hb : b < 256 := hlt b (List.mem_cons_self _ _)
    have hbs' : ∀ x ∈ bs', x < 256 := fun x hx => hlt x (List.mem_cons_of_mem _ hx)
    simp only [List.flatMap_cons, percentByte, List.cons_append, List.append_assoc,
      List.nil_append]
    rw [unquote_pct _ (hexVal_hexUpper _ (by omega)) (hexVal_hexUpper _ (by omega))]
    rw [percentRun_bytes bs' hbs' hz]
    have hbb : b / 16 * 16 + b % 16 = b := by omega
    rw [hbb]

theorem dropWhile_head_false {p : Char → Bool} : ∀ {l : PyStr} {d : Char} {r : PyStr},
    l.dropWhile p = d :: r → p d = false := by
  intro l
  induction l with
  | nil => intro d r h; simp at h
  | cons x t ih =>
    intro d r h
    by_cases hx : p x
    · rw [List.dropWhile_cons_of_pos hx] at h
      exact ih h
    · rw [List.dropWhile_cons_of_neg hx] at h
      rw [List.cons.injEq] at h
      rw [← h.1]
      exact Bool.of_not_eq_true hx

theorem rt_run_step {u t0 : PyStr} (hu : u ≠ [])
    (hall : ∀ x ∈ u, safeChar x = false ∧ x ≠ ' ')
    (hz : (plusToSpace (quote_plus t0)).head? ≠ some '%') :
    unquote (plusToSpace (quote_plus (u ++ t0))) =
      u ++ unquote (plusToSpace (quote_plus t0)) := by
  have e1 : plusToSpace (quote_plus (u ++ t0)) =
      (utf8Bytes u).flatMap percentByte ++ plusToSpace (quote_plus t0) := by
    simp only [quote_plus, List.flatMap_append, plusToSpace, List.map_append]
    have e := quote_unsafe_run u hall
    simp only [quote_plus, plusToSpace] at e
    rw [e]
  have hne : utf8Bytes u ≠ [] := by
    cases u with
    | nil => exact absurd rfl hu
    | cons c u2 =>
      rw [utf8Bytes_cons]
      intro e
      exact utf8EncodeCp_ne_nil _ (List.append_eq_nil.mp e).1
  rw [e1, unquote_percentHex (utf8Bytes u) hne (fun b hb => utf8Bytes_lt_256 hb) hz,
    utf8DecodeReplace_encode]

theorem unquote_quote_aux : ∀ (k : Nat) (s : PyStr), s.length ≤ k →
    unquote (plusToSpace (quote_plus s)) = s := by
  intro k
  induction k with
  | zero =>
    intro s hs
    cases s with
    | nil => rfl
    | cons c t => simp at hs
  | succ k ih =>
    intro s hs
    cases s with
    | nil => rfl
    | cons c t =>
      by_cases hsp : c = ' '
      · subst hsp
        have e1 : plusToSpace (quote_plus (' ' :: t)) = ' ' :: plusToSpace (quote_plus t) := by
          simp [quote_plus, plusToSpace, qpc_space]
        rw [e1, unquote_cons_lit (by decide) _, ih t (by simp at hs; omega)]
      · by_cases hsafe : safeChar c
        · have e1 : plusToSpace (quote_plus (c :: t)) = c :: plusToSpace (quote_plus t) := by
            simp only [quote_plus, List.flatMap_cons, plusToSpace, List.map_append,
              qpc_safe hsafe, List.map_cons, List.map_nil, List.cons_append, List.nil_append]
            rw [if_neg (ne_of_safe hsafe (by decide))]
          rw [e1, unquote_cons_lit (ne_of_safe hsafe (by decide)) _, ih t (by simp at hs; omega)]
        · have hsafe2 : safeChar c = false := Bool.of_not_eq_true hsafe
          have hpc : (fun x => !(x == ' ') && !safeChar x) c = true := by
            simp only [Bool.and_eq_true, Bool.not_eq_true', beq_eq_false_iff_ne]
            exact ⟨hsp, hsafe2⟩
          have hu : (c :: t).takeWhile (fun x => !(x == ' ') && !safeChar x) =
              c :: t.takeWhile (fun x => !(x == ' ') && !safeChar x) :=
            List.takeWhile_cons_of_pos hpc
          have hsplit : (c :: t).takeWhile (fun x => !(x == ' ') && !safeChar x) ++
              (c :: t).dropWhile (fun x => !(x == ' ') && !safeChar x) = c :: t :=
            List.takeWhile_append_dropWhile _ _
          have hallu : ∀ x ∈ (c :: t).takeWhile (fun x => !(x == ' ') && !safeChar x),
              safeChar x = false ∧ x ≠ ' ' := by
            intro x hx
            have hpx := List.mem_takeWhile_imp hx
            simp only [Bool.and_eq_true, Bool.not_eq_true', beq_eq_false_iff_ne] at hpx
            exact ⟨hpx.2, hpx.1⟩
          have hz : (plusToSpace (quote_plus
              ((c :: t).dropWhile (fun x => !(x == ' ') && !safeChar x)))).head? ≠ some '%' := by
            cases h0 : (c :: t).dropWhile (fun x => !(x == ' ') && !safeChar x) with
            | nil => simp [quote_plus, plusToSpace]
            | cons d r =>
              have hpd := dropWhile_head_false h0
              by_cases h1 : d = ' '
              · subst h1
                simp [quote_plus, plusToSpace, qpc_space]
              · have hsd : safeChar d = true := by
                  have hb : (d == ' ') = false := beq_eq_false_iff_ne.mpr h1
                  simp only [hb, Bool.not_false, Bool.true_and, Bool.not_eq_false'] at hpd
                  exact hpd
                have e1 := qpc_safe hsd
                simp only [quote_plus, List.flatMap_cons, plusToSpace, List.map_append,
                  e1, List.map_cons, List.map_nil, List.cons_append, List.nil_append]
                rw [if_neg (ne_of_safe hsd (by decide))]
                simp only [List.head?_cons, ne_eq, Option.some.injEq]
                exact ne_of_safe hsd (by decide)
          have hlen : ((c :: t).dropWhile (fun x => !(x == ' ') && !safeChar x)).length ≤ k := by
            have e := congrArg List.length hsplit
            rw [List.length_append, hu] at e
            simp only [List.length_cons] at e hs
            omega
          rw [← hsplit, rt_run_step (by rw [hu]; simp) hallu hz,
            ih _ hlen]

theorem unquote_plus_quote_plus (s : PyStr) : unquote_plus (quote_plus s) = s :=
  unquote_quote_aux s.length s (le_refl _)

example : unquote_plus (quote_plus (pys "a b+c/é%")) = pys "a b+c/é%" := by decide
example : quote_plus (pys "a b") = pys "a+b" := by decide
example : unquote (pys "%41%C3%A9") = pys "Aé" := by decide

theorem quote_plus_chars {s : PyStr} {c : Char} (h : c ∈ quote_plus s) :
    safeChar c = true ∨ c = '+' ∨ c = '%' := by
  simp only [quote_plus, List.mem_flatMap] at h
  obtain ⟨d, _, hd⟩ := h
  simp only [quotePlusChar] at hd
  split_ifs at hd with h1 h2
  · simp only [List.mem_singleton] at hd
    right
    left
    exact hd
  · simp only [List.mem_singleton] at hd
    subst hd
    left
    exact h2
  · simp only [List.mem_flatMap, percentByte] at hd
    obtain ⟨b, hb, hc⟩ := hd
    have hb256 : b < 256 := utf8EncodeCp_lt_256 (char_toNat_lt d) hb
    simp only [List.mem_cons, List.not_mem_nil, or_false] at hc
    rcases hc with rfl | rfl | rfl
    · right; right; rfl
    · left; exact safeChar_hexUpper _ (by omega)
    · left; exact safeChar_hexUpper _ (by omega)

theorem not_mem_quote_plus {d : Char} (hd : safeChar d = false) (h1 : d ≠ '+') (h2 : d ≠ '%')
    (s : PyStr) : d ∉ quote_plus s := by
  intro hm
  rcases quote_plus_chars hm with h | h | h
  · rw [hd] at h
    exact Bool.noConfusion h
  · exact h1 h
  · exact h2 h

theorem quotePlusChar_ne_nil (c : Char) : quotePlusChar c ≠ [] := by
  simp only [quotePlusChar]
  split_ifs with h1 h2
  · simp
  · simp
  · cases he : utf8EncodeCp c.toNat with
    | nil => exact absurd he (utf8EncodeCp_ne_nil _)
    | cons b bs =>
      simp [percentByte]

theorem quote_plus_eq_nil_iff (s : PyStr) : quote_plus s = [] ↔ s = [] := by
  cases s with
  | nil => simp [quote_plus]
  | cons c t =>
    simp only [quote_plus, List.flatMap_cons, List.append_eq_nil]
    constructor
    · intro h
      exact absurd h.1 (quotePlusChar_ne_nil c)
    · intro h
      exact absurd h (by simp)

/-- Python `urllib.parse.parse_qsl(qs)` with default arguments
    (`keep_blank_values=False`, `strict_parsing=False`, separator `"&"`):
    split on `&`, skip segments without `=` and segments with an empty
    value, decode names and values with `+`-to-space then `unquote`. -/
def parse_qsl (qs : PyStr) : List (PyStr × PyStr) :=
  (splitSep '&' qs).filterMap (fun nv =>
    match splitFirst '=' nv with
    | none => none
    | some (n, v) =>
      if v = [] then none
      else some (unquote (plusToSpace n), unquote (plusToSpace v)))

/-- The Python values admissible as query-dict entries in
    `merge_query_to_url`: strings, ints, floats — plus `invalid`, standing
    for any value of another type, which validation rejects.  A float is
    represented by its `str(...)` rendering, the only attribute of it this
    pipeline observes; `invalid` carries the `str(...)` rendering used in
    the validation error message. -/
inductive QVal
  | str (s : PyStr)
  | int (n : Int)
  | float (r : PyStr)
  | invalid (r : PyStr)
deriving DecidableEq

/-- Python `str(v)` for query values (ints rendered in decimal). -/
def pyStr : QVal → PyStr
  | .str s => s
  | .int n => (toString n).toList
  | .float r => r
  | .invalid r => r

/-- Python `"&".join(l)`. -/
def joinAmp : List PyStr → PyStr
  | [] => []
  | [s] => s
  | s :: rest => s ++ '&' :: joinAmp rest

/-- Python `urllib.parse.urlencode(pairs)` with default arguments
    (`doseq=False`, `quote_via=quote_plus`, `safe=""`): stringify and
    quote each key and value, emit `k=v` joined with `&`. -/
def urlencode (ps : List (PyStr × QVal)) : PyStr :=
  joinAmp (ps.map (fun p => quote_plus p.1 ++ '=' :: quote_plus (pyStr p.2)))

theorem amp_not_mem_seg (k : PyStr) (v : QVal) :
    '&' ∉ quote_plus k ++ '=' :: quote_plus (pyStr v) := by
  simp only [List.mem_append, List.mem_cons, not_or]
  exact ⟨not_mem_quote_plus (by decide) (by decide) (by decide) k,
    by decide, not_mem_quote_plus (by decide) (by decide) (by decide) _⟩

theorem splitSep_joinAmp : ∀ (xs : List PyStr), (∀ x ∈ xs, '&' ∉ x) → xs ≠ [] →
    splitSep '&' (joinAmp xs) = xs := by
  intro xs
  induction xs with
  | nil => intro _ h; exact absurd rfl h
  | cons x t ih =>
    intro h _
    cases t with
    | nil => exact splitSep_no_sep (h x (List.mem_cons_self _ _))
    | cons y r =>
      show splitSep '&' (x ++ '&' :: joinAmp (y :: r)) = x :: y :: r
      rw [splitSep_append _ (h x (List.mem_cons_self _ _))]
      rw [ih (fun z hz => h z (List.mem_cons_of_mem _ hz)) (by simp)]

theorem filterMap_guard {α β : Type} (g : α → β) (c : α → Bool) (l : List α) :
    l.filterMap (fun a => if c a then some (g a) else none) = (l.filter c).map g := by
  induction l with
  | nil => rfl
  | cons a t ih =>
    by_cases hc : c a
    · simp [List.filterMap_cons, hc, ih, List.filter_cons]
    · simp [List.filterMap_cons, hc, ih, List.filter_cons]

theorem parse_qsl_urlencode (ps : List (PyStr × QVal)) :
    parse_qsl (urlencode ps) =
      (ps.filter (fun p => !(pyStr p.2).isEmpty)).map (fun p => (p.1, pyStr p.2)) := by
  cases hps : ps with
  | nil => rfl
  | cons p0 t0 =>
    rw [parse_qsl, urlencode]
    rw [splitSep_joinAmp _ ?hamp (by simp)]
    case hamp =>
      intro x hx
      simp only [List.mem_map] at hx
      obtain ⟨q, _, rfl⟩ := hx
      exact amp_not_mem_seg q.1 q.2
    have hpt : ∀ q : PyStr × QVal,
        (fun nv =>
          match splitFirst '=' nv with
          | none => none
          | some (n, v) =>
            if v = [] then none
            else some (unquote (plusToSpace n), unquote (plusToSpace v)))
            ((fun p => quote_plus p.1 ++ '=' :: quote_plus (pyStr p.2)) q) =
          if !(pyStr q.2).isEmpty then some (q.1, pyStr q.2) else none := by
      intro q
      have hne : '=' ∉ quote_plus q.1 :=
        not_mem_quote_plus (by decide) (by decide) (by decide) _
      simp only [Function.comp, splitFirst_append _ _ hne]
      by_cases hv : pyStr q.2 = []
      · rw [if_pos (by rw [(quote_plus_eq_nil_iff _).mpr hv]), if_neg (by simp [hv])]
      · rw [if_neg (fun e => hv ((quote_plus_eq_nil_iff _).mp e)),
          if_pos (by simp [List.isEmpty_iff, hv])]
        have hk := unquote_plus_quote_plus q.1
        have hvv := unquote_plus_quote_plus (pyStr q.2)
        simp only [unquote_plus] at hk hvv
        rw [hk, hvv]
    calc ((p0 :: t0).map (fun p => quote_plus p.1 ++ '=' :: quote_plus (pyStr p.2))).filterMap
            (fun nv =>
              match splitFirst '=' nv with
              | none => none
              | some (n, v) =>
                if v = [] then none
                else some (unquote (plusToSpace n), unquote (plusToSpace v)))
        = (p0 :: t0).filterMap
            (fun q => if !(pyStr q.2).isEmpty then some (q.1, pyStr q.2) else none) := by
          rw [List.filterMap_map]
          exact List.filterMap_congr (fun q _ => hpt q)
      _ = ((p0 :: t0).filter (fun p => !(pyStr p.2).isEmpty)).map (fun p => (p.1, pyStr p.2)) :=
          filterMap_guard _ _ _

/-- The body of a `Response`: `http_request` always stores raw bytes
    (`response.read()` / `e.read()`), but `format_response_result` also
    accepts an already-str content (`str | bytes | bytearray` in the
    dataclass; a bytearray behaves as its bytes here). -/
inductive PyContent
  | str (s : PyStr)
  | bytes (b : List Nat)
deriving DecidableEq

/-- The `Response` dataclass of request.py. -/
structure Response where
  url : PyStr
  version : PyStr
  status_code : Nat
  reason : PyStr
  headers : List (PyStr × PyStr)
  content : PyContent
deriving DecidableEq

/-- The `Response.content_type` property: value of the first header whose
    name lowercases to `content-type`, else `application/octet-stream`. -/
def Response.content_type (r : Response) : PyStr :=
  match r.headers.find? (fun p => p.1.map lowerAscii = pys "content-type") with
  | some p => p.2
  | none => pys "application/octet-stream"

/-- Python exception values reaching the pipeline: the three `McpError`
    subclasses of request.py, `ValueError` (raised inside `urlsplit`), and
    a catch-all for any other exception.  A `ResponseError` carries its
    response and the `reason` keyword (which defaults to `None`). -/
inductive PyExc
  | argumentError (message : PyStr)
  | requestError (message : PyStr)
  | responseError (response : Response) (message : PyStr) (reason : Option PyStr)
  | valueError (message : PyStr)
  | otherError (message : PyStr)
deriving DecidableEq

/-- The result of `urllib.parse.urlsplit`. -/
structure SplitResult where
  scheme : PyStr
  netloc : PyStr
  path : PyStr
  query : PyStr
  fragment : PyStr
deriving DecidableEq

/-- The result of `urllib.parse.urlparse`. -/
structure ParseResult where
  scheme : PyStr
  netloc : PyStr
  path : PyStr
  params : PyStr
  query : PyStr
  fragment : PyStr
deriving DecidableEq

/-- `urllib.parse.scheme_chars`. -/
def schemeChar (c : Char) : Bool := isAlphaA c || isDigitA c || c = '+' || c = '-' || c = '.'

/-- The scheme test of `urlsplit`: nonempty, ASCII letter first
    (`url[0].isascii() and url[0].isalpha()`), every further character in
    `scheme_chars`. -/
def schemeOk : PyStr → Bool
  | [] => false
  | c :: r => isAlphaA c && r.all schemeChar

/-- The scheme-splitting step of `urlsplit`: take everything before the
    first `:` as the scheme (lowercased) when it passes `schemeOk`. -/
def splitScheme (u : PyStr) : PyStr × PyStr :=
  match splitFirst ':' u with
  | none => ([], u)
  | some (bef, aft) => if schemeOk bef then (bef.map lowerAscii, aft) else ([], u)

/-- A character that survives `urlsplit`'s removal of
    `_UNSAFE_URL_BYTES_TO_REMOVE` (tab, CR, LF). -/
def goodChar (c : Char) : Bool := !(c == '\t') && !(c == '\r') && !(c == '\n')

/-- Removal of the `_UNSAFE_URL_BYTES_TO_REMOVE` (tab, CR, LF), the first
    step of `urlsplit`. -/
def removeUnsafe (u : PyStr) : PyStr := u.filter goodChar

/-- A character that does not delimit the netloc (`_splitnetloc` scans for
    the first of `/?#`). -/
def netlocChar (c : Char) : Bool := !(c == '/') && !(c == '?') && !(c == '#')

/-- `urllib.parse._splitnetloc` (after the leading `//` is dropped). -/
def splitNetloc (u : PyStr) : PyStr × PyStr :=
  (u.takeWhile netlocChar, u.dropWhile netlocChar)

/-- Python `urllib.parse.urlsplit(url)` with default arguments, per the
    CPython implementation: remove unsafe bytes, split off a scheme, a
    `//`-netloc (rejecting unbalanced square brackets with `ValueError`),
    then the fragment at the first `#`, then the query at the first `?`.
    (CPython ≥ 3.11 additionally validates contents of a *bracketed* host;
    that host-format check is not modelled.) -/
def urlsplit (url : PyStr) : Except PyExc SplitResult :=
  let u1 := removeUnsafe url
  let sp := splitScheme u1
  let nl := if sp.2.take 2 = ['/', '/'] then splitNetloc (sp.2.drop 2) else ([], sp.2)
  if (nl.1.contains '[' && !(nl.1.contains ']')) ||
     (nl.1.contains ']' && !(nl.1.contains '[')) then
    .error (.valueError (pys "Invalid IPv6 URL"))
  else
    let fq := match splitFirst '#' nl.2 with
      | some p => p
      | none => (nl.2, [])
    let pq := match splitFirst '?' fq.1 with
      | some p => p
      | none => (fq.1, [])
    .ok ⟨sp.1, nl.1, pq.1, pq.2, fq.2⟩

/-- `urllib.parse.uses_params`. -/
def uses_params : List PyStr :=
  [[], pys "ftp", pys "hdl", pys "prospero", pys "http", pys "imap", pys "https", pys "shttp",
    pys "rtsp", pys "rtspu", pys "sip", pys "sips", pys "mms", pys "sftp", pys "tel"]

/-- The last `/`-separated segment of a path (what
    `url.find(';', url.rfind('/'))` searches in). -/
def lastSeg (u : PyStr) : PyStr := (u.reverse.takeWhile (fun c => !(c == '/'))).reverse

/-- The part of a path before `lastSeg`. -/
def stemOf (u : PyStr) : PyStr := u.take (u.length - (lastSeg u).length)

/-- `urllib.parse._splitparams`: split params at the first `;` of the last
    path segment (of the whole string when it has no `/`). -/
def splitparams (u : PyStr) : PyStr × PyStr :=
  if '/' ∈ u then
    match splitFirst ';' (lastSeg u) with
    | some (a, b) => (stemOf u ++ a, b)
    | none => (u, [])
  else
    match splitFirst ';' u with
    | some (a, b) => (a, b)
    | none => (u, [])

/-- Python `urllib.parse.urlparse(url)`: `urlsplit`, then split params off
    the path when the scheme uses params and the path has a `;`. -/
def urlparse (url : PyStr) : Except PyExc ParseResult :=
  match urlsplit url with
  | .error e => .error e
  | .ok s =>
    if s.scheme ∈ uses_params ∧ ';' ∈ s.path then
      .ok ⟨s.scheme, s.netloc, (splitparams s.path).1, (splitparams s.path).2, s.query,
        s.fragment⟩
    else
      .ok ⟨s.scheme, s.netloc, s.path, [], s.query, s.fragment⟩

/-- Python `urllib.parse.urlunsplit`. -/
def urlunsplit (scheme netloc path query fragment : PyStr) : PyStr :=
  let u1 :=
    if netloc ≠ [] ∨ (path ≠ [] ∧ path.take 2 = ['/', '/']) then
      (pys "//") ++ netloc ++ (if path ≠ [] ∧ path.take 1 ≠ ['/'] then '/' :: path else path)
    else path
  let u2 := if scheme ≠ [] then scheme ++ ':' :: u1 else u1
  let u3 := if query ≠ [] then u2 ++ '?' :: query else u2
  if fragment ≠ [] then u3 ++ '#' :: fragment else u3

/-- The path with params reattached, as `urlunparse` rebuilds it
    (`"%s;%s" % (url, params)` when params is nonempty). -/
def paramsPath (p : ParseResult) : PyStr :=
  if p.params ≠ [] then p.path ++ ';' :: p.params else p.path

/-- Python `urllib.parse.urlunparse`: reattach params, then `urlunsplit`. -/
def urlunparse (p : ParseResult) : PyStr :=
  urlunsplit p.scheme p.netloc (paramsPath p) p.query p.fragment

/-- `merge_query_to_url` of request.py: parse the url, decode its query
    into pairs, validate the new values, form the set of old and new pairs
    (`set(original_query)` updated with `query_dict.items()`), re-encode,
    and rebuild the url with the other five components preserved. -/
def merge_query_to_url (url : PyStr) (query_dict : List (PyStr × QVal)) : Except PyExc PyStr :=
  match urlparse url with
  | .error e => .error e
  | .ok parsed_url =>
    match query_dict.find? (fun p => match p.2 with | .invalid _ => true | _ => false) with
    | some p =>
      .error (.argumentError (pys "invalid value for query parameter " ++ p.1 ++ pys ": " ++
        pyStr p.2 ++ pys ". value must be a string, int, or float."))
    | none =>
      .ok (urlunparse ⟨parsed_url.scheme, parsed_url.netloc, parsed_url.path,
        parsed_url.params,
        urlencode (setList ((parse_qsl parsed_url.query).map (fun q => (q.1, QVal.str q.2)) ++
          query_dict)),
        parsed_url.fragment⟩)

/-- The decoded query pairs of a url (used to state the pair-set claims);
    empty when the url does not parse. -/
def decodedPairsD (u : PyStr) : List (PyStr × PyStr) :=
  match urlparse u with
  | .ok r => parse_qsl r.query
  | .error _ => []

deriving instance DecidableEq for Except

example : merge_query_to_url (pys "example.com/x?a=1") [(pys "b", QVal.int 2)] =
    Except.ok (pys "example.com/x?a=1&b=2") := by decide

example : decodedPairsD (pys "example.com/x?a=1&b=2") = [(pys "a", pys "1"), (pys "b", pys "2")] := by
  decide

example : merge_query_to_url (pys "http://u:p@h:8080/p;par?x=%201#f r") [(pys "k", QVal.float (pys "1.5"))] =
    Except.ok (pys "http://u:p@h:8080/p;par?x=+1&k=1.5#f r") := by decide

theorem bool_pred_ne {p : Char → Bool} {c d : Char} (h : p c = true) (hd : p d = false) :
    c ≠ d := by
  intro e
  rw [e, hd] at h
  exact Bool.noConfusion h

theorem splitFirst_mem {sep : Char} : ∀ {l : PyStr}, sep ∈ l →
    ∃ a b, splitFirst sep l = some (a, b) := by
  intro l hl
  induction l with
  | nil => simp at hl
  | cons c t ih =>
    by_cases hc : c = sep
    · exact ⟨[], t, by simp [splitFirst, hc]⟩
    · have : sep ∈ t := by
        rcases List.mem_cons.mp hl with e | e
        · exact absurd e.symm hc
        · exact e
      obtain ⟨a, b, hab⟩ := ih this
      exact ⟨c :: a, b, by simp [splitFirst, hc, hab]⟩

theorem splitFirst_append_right {sep : Char} {a : PyStr} (b : PyStr) (h : sep ∉ a) :
    splitFirst sep (a ++ b) =
      (splitFirst sep b).map (fun p => (a ++ p.1, p.2)) := by
  induction a with
  | nil =>
    simp only [List.nil_append]
    cases splitFirst sep b with
    | none => rfl
    | some p => simp
  | cons c t ih =>
    simp only [List.mem_cons, not_or] at h
    have iht := ih h.2
    simp only [List.cons_append, splitFirst, if_neg (Ne.symm h.1), List.append_eq]
    rw [iht]
    cases splitFirst sep b with
    | none => rfl
    | some p => rfl

theorem takeWhile_append_all {p : Char → Bool} : ∀ {a b : PyStr},
    (∀ c ∈ a, p c = true) →
    (b = [] ∨ ∃ d r, b = d :: r ∧ p d = false) →
    (a ++ b).takeWhile p = a ∧ (a ++ b).dropWhile p = b := by
  intro a
  induction a with
  | nil =>
    intro b _ hb
    rcases hb with rfl | ⟨d, r, rfl, hd⟩
    · simp
    · simp only [List.nil_append]
      constructor
      · rw [List.takeWhile_cons_of_neg (by simp [hd])]
      · rw [List.dropWhile_cons_of_neg (by simp [hd])]
  | cons c t ih =>
    intro b ha hb
    have hc : p c = true := ha c (List.mem_cons_self _ _)
    have := ih (fun x hx => ha x (List.mem_cons_of_mem _ hx)) hb
    simp only [List.cons_append]
    constructor
    · rw [List.takeWhile_cons_of_pos hc, this.1]
    · rw [List.dropWhile_cons_of_pos hc, this.2]

theorem schemeOk_false_of_head {bef : PyStr} {d : Char} (h : bef.head? = some d)
    (hd : isAlphaA d = false) : schemeOk bef = false := by
  cases bef with
  | nil => rfl
  | cons c t =>
    simp only [List.head?_cons, Option.some.injEq] at h
    subst h
    simp [schemeOk, hd]

theorem schemeOk_false_of_tail {bef : PyStr} {d : Char} (hmem : d ∈ bef.tail)
    (hd : schemeChar d = false) : schemeOk bef = false := by
  cases bef with
  | nil => rfl
  | cons c t =>
    simp only [List.tail_cons] at hmem
    simp only [schemeOk, Bool.and_eq_false_iff]
    right
    rw [List.all_eq_false]
    exact ⟨d, hmem, by simp [hd]⟩

/-- The characters that can occur in `urlencode` output: `quote_plus`
    output plus the separators `=` and `&`. -/
def queryChar (c : Char) : Bool := safeChar c || c = '+' || c = '%' || c = '=' || c = '&'

theorem urlencode_chars {ps : List (PyStr × QVal)} {c : Char} (h : c ∈ urlencode ps) :
    queryChar c = true := by
  induction ps with
  | nil => simp [urlencode, joinAmp] at h
  | cons p t ih =>
    rw [urlencode] at h ih
    have step : ∀ x : Char, (x ∈ quote_plus p.1 ∨ x = '=' ∨ x ∈ quote_plus (pyStr p.2)) →
        queryChar x = true := by
      intro x hx
      rcases hx with hx | hx | hx
      · rcases quote_plus_chars hx with h1 | h1 | h1 <;> simp [queryChar, h1]
      · simp [queryChar, hx]
      · rcases quote_plus_chars hx with h1 | h1 | h1 <;> simp [queryChar, h1]
    cases t with
    | nil =>
      simp only [List.map_cons, List.map_nil, joinAmp, List.mem_append, List.mem_cons,
        List.not_mem_nil, or_false] at h
      exact step c h
    | cons q r =>
      have hj : joinAmp (((p :: q :: r).map
          (fun p => quote_plus p.1 ++ '=' :: quote_plus (pyStr p.2)))) =
          (quote_plus p.1 ++ '=' :: quote_plus (pyStr p.2)) ++ '&' ::
            joinAmp ((q :: r).map (fun p => quote_plus p.1 ++ '=' :: quote_plus (pyStr p.2))) := by
        simp [joinAmp]
      rw [hj] at h
      simp only [List.mem_append, List.mem_cons] at h
      rcases h with (h | h | h) | h | h
      · exact step c (Or.inl h)
      · exact step c (Or.inr (Or.inl h))
      · exact step c (Or.inr (Or.inr h))
      · simp [queryChar, h]
      · exact ih h

theorem char_eq_iff_toNat {c d : Char} : c = d ↔ c.toNat = d.toNat :=
  ⟨fun h => by rw [h], char_eq_of_toNat_eq⟩

theorem lowerAscii_toNat (c : Char) :
    (lowerAscii c).toNat = if 65 ≤ c.toNat ∧ c.toNat ≤ 90 then c.toNat + 32 else c.toNat := by
  unfold lowerAscii
  split_ifs with h
  · exact char_toNat_ofNat (Or.inl (by omega))
  · rfl

theorem lowerAscii_idem (c : Char) : lowerAscii (lowerAscii c) = lowerAscii c := by
  apply char_eq_of_toNat_eq
  simp only [lowerAscii_toNat]
  split_ifs <;> omega

theorem lowerAscii_eq_self {c : Char} (h : ¬(65 ≤ c.toNat ∧ c.toNat ≤ 90)) :
    lowerAscii c = c := by
  unfold lowerAscii
  rw [if_neg h]

theorem isAlphaA_lower {c : Char} (h : isAlphaA c = true) : isAlphaA (lowerAscii c) = true := by
  simp only [isAlphaA, isUpperA, isLowerA, Bool.or_eq_true, Bool.and_eq_true,
    decide_eq_true_eq] at h ⊢
  rw [lowerAscii_toNat]
  split_ifs <;> omega

theorem schemeChar_lower {c : Char} (h : schemeChar c = true) :
    schemeChar (lowerAscii c) = true := by
  simp only [schemeChar, isAlphaA, isUpperA, isLowerA, isDigitA, Bool.or_eq_true,
    Bool.and_eq_true, decide_eq_true_eq, char_eq_iff_toNat,
    show ('+' : Char).toNat = 43 from rfl, show ('-' : Char).toNat = 45 from rfl,
    show ('.' : Char).toNat = 46 from rfl] at h ⊢
  rw [lowerAscii_toNat]
  split_ifs <;> omega

theorem schemeOk_map_lower {s : PyStr} (h : schemeOk s = true) :
    schemeOk (s.map lowerAscii) = true := by
  cases s with
  | nil => exact absurd h (by simp [schemeOk])
  | cons c r =>
    simp only [schemeOk, Bool.and_eq_true, List.all_eq_true] at h
    simp only [List.map_cons, schemeOk, Bool.and_eq_true, List.all_eq_true]
    refine ⟨isAlphaA_lower h.1, ?_⟩
    intro x hx
    simp only [List.mem_map] at hx
    obtain ⟨y, hy, rfl⟩ := hx
    exact schemeChar_lower (h.2 y hy)

theorem map_lower_idem (s : PyStr) : (s.map lowerAscii).map lowerAscii = s.map lowerAscii := by
  rw [List.map_map]
  exact List.map_congr_left (fun c _ => lowerAscii_idem c)

theorem stem_lastSeg (v : PyStr) : stemOf v ++ lastSeg v = v := by
  rw [stemOf, lastSeg]
  set B := (v.reverse.takeWhile (fun c => !(c == '/'))).reverse with hB
  set A := (v.reverse.dropWhile (fun c => !(c == '/'))).reverse with hA
  have hsplit : A ++ B = v := by
    rw [hA, hB, ← List.reverse_append, List.takeWhile_append_dropWhile, List.reverse_reverse]
  rw [← hsplit, List.length_append]
  have he : A.length + B.length - B.length = A.length := by omega
  rw [he, List.take_left]

theorem splitparams_paramsPath (v : PyStr) :
    (if (splitparams v).2 ≠ [] then (splitparams v).1 ++ ';' :: (splitparams v).2
      else (splitparams v).1) <+: v := by
  by_cases hs : '/' ∈ v
  · rw [splitparams, if_pos hs]
    match hx : splitFirst ';' (lastSeg v) with
    | some (a, b) =>
      simp only [hx]
      obtain ⟨hseg, -⟩ := splitFirst_eq_some hx
      by_cases hb : b = []
      · subst hb
        simp only [ne_eq, not_true_eq_false, if_false]
        refine ⟨[';'], ?_⟩
        rw [List.append_assoc]
        have : a ++ [';'] = a ++ ';' :: [] := rfl
        rw [this, ← hseg, stem_lastSeg]
      · rw [if_pos (by simp [hb])]
        refine ⟨[], ?_⟩
        rw [List.append_nil, List.append_assoc, ← hseg, stem_lastSeg]
    | none =>
      simp only [hx]
      simp
  · rw [splitparams, if_neg hs]
    match hx : splitFirst ';' v with
    | some (a, b) =>
      simp only [hx]
      obtain ⟨hseg, -⟩ := splitFirst_eq_some hx
      by_cases hb : b = []
      · subst hb
        simp only [ne_eq, not_true_eq_false, if_false]
        refine ⟨[';'], ?_⟩
        have : a ++ [';'] = a ++ ';' :: [] := rfl
        rw [this, ← hseg]
      · rw [if_pos (by simp [hb])]
        exact ⟨[], by rw [List.append_nil, ← hseg]⟩
    | none =>
      simp only [hx]
      simp

theorem splitScheme_shape (u1 : PyStr) :
    (splitScheme u1 = ([], u1) ∧
      (∀ bef aft, splitFirst ':' u1 = some (bef, aft) → schemeOk bef = false)) ∨
    (∃ bef aft, splitFirst ':' u1 = some (bef, aft) ∧ schemeOk bef = true ∧
      splitScheme u1 = (bef.map lowerAscii, aft)) := by
  rw [splitScheme]
  match hx : splitFirst ':' u1 with
  | none =>
    left
    refine ⟨rfl, ?_⟩
    intro bef aft he
    simp at he
  | some (bef, aft) =>
    by_cases hok : schemeOk bef = true
    · right
      refine ⟨bef, aft, rfl, hok, ?_⟩
      show (if schemeOk bef = true then (bef.map lowerAscii, aft) else ([], u1)) =
        (bef.map lowerAscii, aft)
      rw [if_pos hok]
    · left
      constructor
      · show (if schemeOk bef = true then (bef.map lowerAscii, aft) else ([], u1)) = ([], u1)
        rw [if_neg hok]
      · intro b a he
        simp only [Option.some.injEq, Prod.mk.injEq] at he
        rw [← he.1]
        exact Bool.of_not_eq_true hok

theorem urlsplit_inv {u : PyStr} {r : SplitResult} (h : urlsplit u = .ok r) :
    ∃ rest1 rest2 prequery,
      splitScheme (removeUnsafe u) = (r.scheme, rest1) ∧
      (if rest1.take 2 = ['/', '/'] then splitNetloc (rest1.drop 2) else ([], rest1)) =
        (r.netloc, rest2) ∧
      (r.netloc.contains '[' = r.netloc.contains ']') ∧
      (match splitFirst '#' rest2 with
        | some p => p
        | none => (rest2, [])) = (prequery, r.fragment) ∧
      (match splitFirst '?' prequery with
        | some p => p
        | none => (prequery, [])) = (r.path, r.query) := by
  simp only [urlsplit] at h
  set X := removeUnsafe u with hX
  set sp := splitScheme X with hsp
  by_cases hbr2 : sp.2.take 2 = ['/', '/']
  · rw [if_pos hbr2] at h
    set nl := splitNetloc (sp.2.drop 2) with hnl
    split at h
    · exact absurd h (by simp)
    · rename_i hbr
      simp only [Except.ok.injEq] at h
      subst h
      refine ⟨sp.2, nl.2, _, rfl, ?_, ?_, rfl, rfl⟩
      · rw [if_pos hbr2]
      · revert hbr
        cases nl.1.contains '[' <;> cases nl.1.contains ']' <;> simp
  · rw [if_neg hbr2] at h
    split at h
    · exact absurd h (by simp)
    · rename_i hbr
      simp only [Except.ok.injEq] at h
      subst h
      refine ⟨sp.2, sp.2, _, rfl, ?_, ?_, rfl, rfl⟩
      · rw [if_neg hbr2]
      · rfl

theorem goodChar_of_toNat {c : Char} (h : c.toNat ≠ 9 ∧ c.toNat ≠ 13 ∧ c.toNat ≠ 10) :
    goodChar c = true := by
  simp only [goodChar, Bool.and_eq_true, Bool.not_eq_true', beq_eq_false_iff_ne, ne_eq,
    char_eq_iff_toNat, show ('\t' : Char).toNat = 9 from rfl,
    show ('\r' : Char).toNat = 13 from rfl, show ('\n' : Char).toNat = 10 from rfl]
  tauto

theorem goodChar_of_alpha {c : Char} (h : isAlphaA c = true) : goodChar c = true := by
  apply goodChar_of_toNat
  simp only [isAlphaA, isUpperA, isLowerA, Bool.or_eq_true, Bool.and_eq_true,
    decide_eq_true_eq] at h
  omega

theorem goodChar_of_schemeChar {c : Char} (h : schemeChar c = true) : goodChar c = true := by
  apply goodChar_of_toNat
  simp only [schemeChar, isAlphaA, isUpperA, isLowerA, isDigitA, Bool.or_eq_true,
    Bool.and_eq_true, decide_eq_true_eq, char_eq_iff_toNat,
    show ('+' : Char).toNat = 43 from rfl, show ('-' : Char).toNat = 45 from rfl,
    show ('.' : Char).toNat = 46 from rfl] at h
  omega

theorem schemeOk_good {s : PyStr} (h : schemeOk s = true) : ∀ c ∈ s, goodChar c = true := by
  cases s with
  | nil => intro c hc; simp at hc
  | cons x t =>
    simp only [schemeOk, Bool.and_eq_true, List.all_eq_true] at h
    intro c hc
    rcases List.mem_cons.mp hc with rfl | hc
    · exact goodChar_of_alpha h.1
    · exact goodChar_of_schemeChar (h.2 c hc)

theorem schemeOk_ne_nil {s : PyStr} (h : schemeOk s = true) : s ≠ [] := by
  intro e
  rw [e] at h
  exact Bool.noConfusion h

theorem not_mem_of_splitFirst_none {sep : Char} {l : PyStr} (h : splitFirst sep l = none) :
    sep ∉ l := by
  intro hm
  obtain ⟨a, b, e⟩ := splitFirst_mem hm
  rw [e] at h
  exact Option.noConfusion h

theorem takeWhile_nil_cases {p : Char → Bool} {l : PyStr} (h : l.takeWhile p = []) :
    l.dropWhile p = l ∧ (l = [] ∨ ∃ d rs, l = d :: rs ∧ p d = false) := by
  cases l with
  | nil => exact ⟨rfl, Or.inl rfl⟩
  | cons d rs =>
    by_cases hd : p d
    · rw [List.takeWhile_cons_of_pos hd] at h
      exact absurd h (by simp)
    · exact ⟨List.dropWhile_cons_of_neg hd, Or.inr ⟨d, rs, rfl, Bool.of_not_eq_true hd⟩⟩

theorem netlocChar_false_cases {d : Char} (h : netlocChar d = false) :
    d = '/' ∨ d = '?' ∨ d = '#' := by
  simp only [netlocChar, Bool.and_eq_false_iff, Bool.not_eq_false', beq_iff_eq] at h
  tauto

theorem prefix_head {l m : PyStr} (h : l <+: m) {x : Char} {t : PyStr} (hl : l = x :: t) :
    m.head? = some x := by
  obtain ⟨w, hw⟩ := h
  rw [← hw, hl]
  rfl

theorem urlparse_inv {u : PyStr} {pr : ParseResult} (h : urlparse u = .ok pr) :
    ∃ s : SplitResult, urlsplit u = .ok s ∧ pr.scheme = s.scheme ∧ pr.netloc = s.netloc ∧
      pr.query = s.query ∧ pr.fragment = s.fragment ∧ paramsPath pr <+: s.path := by
  rw [urlparse] at h
  match he : urlsplit u with
  | .error e => rw [he] at h; exact absurd h (by simp)
  | .ok s =>
    simp only [he] at h
    refine ⟨s, rfl, ?_⟩
    split at h
    · simp only [Except.ok.injEq] at h
      subst h
      refine ⟨rfl, rfl, rfl, rfl, ?_⟩
      exact splitparams_paramsPath s.path
    · simp only [Except.ok.injEq] at h
      subst h
      refine ⟨rfl, rfl, rfl, rfl, ?_⟩
      show (if ([] : PyStr) ≠ [] then s.path ++ ';' :: [] else s.path) <+: s.path
      rw [if_neg (by simp)]

theorem urlparse_facts {u : PyStr} {pr : ParseResult} (h : urlparse u = .ok pr) :
    (pr.scheme ≠ [] → schemeOk pr.scheme = true ∧ pr.scheme.map lowerAscii = pr.scheme) ∧
    (∀ c ∈ pr.netloc, netlocChar c = true) ∧
    (pr.netloc.contains '[' = pr.netloc.contains ']') ∧
    ('#' ∉ paramsPath pr ∧ '?' ∉ paramsPath pr) ∧
    (∀ c ∈ pr.scheme, goodChar c = true) ∧
    (∀ c ∈ pr.netloc, goodChar c = true) ∧
    (∀ c ∈ paramsPath pr, goodChar c = true) ∧
    (∀ c ∈ pr.fragment, goodChar c = true) ∧
    (pr.scheme = [] → pr.netloc = [] →
      ∀ bef aft, splitFirst ':' (paramsPath pr) = some (bef, aft) → schemeOk bef = false) := by
  obtain ⟨s, hsplit, eSch, eNl, eQ, eF, hpre⟩ := urlparse_inv h
  obtain ⟨rest1, rest2, prequery, i1, i2, i3, i4, i5⟩ := urlsplit_inv hsplit
  have hXg : ∀ c ∈ removeUnsafe u, goodChar c = true := fun c hc => (List.mem_filter.mp hc).2
  have hSalt : (s.scheme = [] ∧ rest1 = removeUnsafe u ∧
      (∀ bef aft, splitFirst ':' (removeUnsafe u) = some (bef, aft) → schemeOk bef = false)) ∨
      (schemeOk s.scheme = true ∧ s.scheme.map lowerAscii = s.scheme ∧
        ∀ c ∈ rest1, c ∈ removeUnsafe u) := by
    rcases splitScheme_shape (removeUnsafe u) with ⟨hEq, hFail⟩ | ⟨bef, aft, hsf, hok, hEq⟩
    · left
      have hc := i1.symm.trans hEq
      simp only [Prod.mk.injEq] at hc
      exact ⟨hc.1, hc.2, hFail⟩
    · right
      have hc := i1.symm.trans hEq
      simp only [Prod.mk.injEq] at hc
      obtain ⟨hsch, hrr⟩ := hc
      obtain ⟨hXeq, -⟩ := splitFirst_eq_some hsf
      refine ⟨by rw [hsch]; exact schemeOk_map_lower hok,
        by rw [hsch]; exact map_lower_idem bef, ?_⟩
      intro c hc2
      rw [hXeq]
      rw [hrr] at hc2
      simp only [List.mem_append, List.mem_cons]
      exact Or.inr (Or.inr hc2)
  have hrest1g : ∀ c ∈ rest1, goodChar c = true := by
    rcases hSalt with ⟨-, hr, -⟩ | ⟨-, -, hsub⟩
    · rw [hr]; exact hXg
    · exact fun c hc => hXg c (hsub c hc)
  have hschemeFacts : s.scheme ≠ [] → schemeOk s.scheme = true ∧
      s.scheme.map lowerAscii = s.scheme := by
    intro hne
    rcases hSalt with ⟨he, -, -⟩ | ⟨h1, h2, -⟩
    · exact absurd he hne
    · exact ⟨h1, h2⟩
  have hschemeGood : ∀ c ∈ s.scheme, goodChar c = true := by
    rcases hSalt with ⟨he, -, -⟩ | ⟨h1, -, -⟩
    · rw [he]; intro c hc; simp at hc
    · exact schemeOk_good h1
  have hN : (rest1.take 2 = ['/', '/'] ∧
        s.netloc = (rest1.drop 2).takeWhile netlocChar ∧
        rest2 = (rest1.drop 2).dropWhile netlocChar) ∨
      (s.netloc = [] ∧ rest2 = rest1) := by
    by_cases hb2 : rest1.take 2 = ['/', '/']
    · left
      rw [if_pos hb2] at i2
      simp only [splitNetloc, Prod.mk.injEq] at i2
      exact ⟨hb2, i2.1.symm, i2.2.symm⟩
    · right
      rw [if_neg hb2] at i2
      simp only [Prod.mk.injEq] at i2
      exact ⟨i2.1.symm, i2.2.symm⟩
  have hnlChar : ∀ c ∈ s.netloc, netlocChar c = true := by
    rcases hN with ⟨-, hn, -⟩ | ⟨hn, -⟩
    · rw [hn]; exact fun c hc => List.mem_takeWhile_imp hc
    · rw [hn]; intro c hc; simp at hc
  have hnlGood : ∀ c ∈ s.netloc, goodChar c = true := by
    rcases hN with ⟨-, hn, -⟩ | ⟨hn, -⟩
    · rw [hn]
      intro c hc
      exact hrest1g c ((List.drop_suffix 2 rest1).subset ((List.takeWhile_prefix _).subset hc))
    · rw [hn]; intro c hc; simp at hc
  have hrest2g : ∀ c ∈ rest2, goodChar c = true := by
    rcases hN with ⟨-, -, hr⟩ | ⟨-, hr⟩
    · rw [hr]
      intro c hc
      exact hrest1g c ((List.drop_suffix 2 rest1).subset ((List.dropWhile_suffix _).subset hc))
    · rw [hr]; exact hrest1g
  have hF : prequery <+: rest2 ∧ '#' ∉ prequery ∧ (∀ c ∈ s.fragment, goodChar c = true) := by
    match hf : splitFirst '#' rest2 with
    | none =>
      simp only [hf] at i4
      simp only [Prod.mk.injEq] at i4
      obtain ⟨hp, hfr⟩ := i4
      rw [← hp, ← hfr]
      exact ⟨List.prefix_refl _, not_mem_of_splitFirst_none hf, by intro c hc; simp at hc⟩
    | some (a, b) =>
      simp only [hf] at i4
      simp only [Prod.mk.injEq] at i4
      obtain ⟨hp, hfr⟩ := i4
      obtain ⟨heq, hna⟩ := splitFirst_eq_some hf
      rw [← hp, ← hfr]
      refine ⟨⟨'#' :: b, heq.symm⟩, hna, ?_⟩
      intro c hc
      apply hrest2g
      rw [heq]
      simp only [List.mem_append, List.mem_cons]
      exact Or.inr (Or.inr hc)
  have hPq : s.path <+: prequery ∧ '?' ∉ s.path := by
    match hq2 : splitFirst '?' prequery with
    | none =>
      simp only [hq2] at i5
      simp only [Prod.mk.injEq] at i5
      rw [← i5.1]
      exact ⟨List.prefix_refl _, not_mem_of_splitFirst_none hq2⟩
    | some (a, b) =>
      simp only [hq2] at i5
      simp only [Prod.mk.injEq] at i5
      obtain ⟨heq, hna⟩ := splitFirst_eq_some hq2
      rw [← i5.1]
      exact ⟨⟨'?' :: b, heq.symm⟩, hna⟩
  have hPPpre : paramsPath pr <+: rest2 := by
    have e1 : paramsPath pr <+: s.path := hpre
    exact (e1.trans hPq.1).trans hF.1
  have hPPsub : ∀ c ∈ paramsPath pr, c ∈ s.path := fun c hc => hpre.subset hc
  have hPPnoHash : '#' ∉ paramsPath pr := by
    intro hc
    exact hF.2.1 (hPq.1.subset (hPPsub _ hc))
  have hPPnoQm : '?' ∉ paramsPath pr := fun hc => hPq.2 (hPPsub _ hc)
  have hPPgood : ∀ c ∈ paramsPath pr, goodChar c = true :=
    fun c hc => hrest2g c (hPPpre.subset hc)
  refine ⟨?_, ?_, ?_, ⟨hPPnoHash, hPPnoQm⟩, ?_, ?_, hPPgood, ?_, ?_⟩
  · rw [eSch]; exact hschemeFacts
  · rw [eNl]; exact hnlChar
  · rw [eNl]; exact i3
  · rw [eSch]; exact hschemeGood
  · rw [eNl]; exact hnlGood
  · rw [eF]; exact hF.2.2
  · -- the no-scheme no-netloc colon fact
    rw [eSch, eNl]
    intro hsc hnl0 bef aft hbf
    have hcase1 : s.scheme = [] ∧ rest1 = removeUnsafe u ∧
        (∀ b2 a2, splitFirst ':' (removeUnsafe u) = some (b2, a2) → schemeOk b2 = false) := by
      rcases hSalt with hc | ⟨h1, -, -⟩
      · exact hc
      · rw [hsc] at h1
        exact absurd h1 (by simp [schemeOk])
    obtain ⟨-, hr1, hFail⟩ := hcase1
    rcases hN with ⟨-, hn, hr2⟩ | ⟨-, hr2⟩
    · -- netloc branch was taken but produced an empty netloc
      rw [hnl0] at hn
      obtain ⟨hdw, hcases⟩ := takeWhile_nil_cases hn.symm
      cases bef with
      | nil => rfl
      | cons x t =>
        obtain ⟨hppeq, -⟩ := splitFirst_eq_some hbf
        have hhead : rest2.head? = some x := prefix_head hPPpre (by rw [hppeq]; rfl)
        have hx : netlocChar x = false := by
          rcases hcases with he | ⟨d, rs, he, hd⟩
          · rw [hr2, hdw, he] at hhead
            exact absurd hhead (by simp)
          · rw [hr2, hdw, he] at hhead
            simp only [List.head?_cons, Option.some.injEq] at hhead
            rw [← hhead]
            exact hd
        have hxmem : x ∈ paramsPath pr := by
          rw [hppeq]
          simp
        rcases netlocChar_false_cases hx with rfl | rfl | rfl
        · exact schemeOk_false_of_head rfl (by decide)
        · exact absurd hxmem hPPnoQm
        · exact absurd hxmem hPPnoHash
    · -- no netloc branch: the whole cleaned input is rest2
      obtain ⟨w, hw⟩ := hPPpre
      rw [hr2, hr1] at hw
      have := splitFirst_append_left w hbf
      rw [hw] at this
      exact hFail bef (aft ++ w) this

theorem goodChar_of_safe {c : Char} (h : safeChar c = true) : goodChar c = true := by
  apply goodChar_of_toNat
  simp only [safeChar, isAlphaA, isUpperA, isLowerA, isDigitA, Bool.or_eq_true,
    Bool.and_eq_true, decide_eq_true_eq, char_eq_iff_toNat,
    show ('_' : Char).toNat = 95 from rfl, show ('.' : Char).toNat = 46 from rfl,
    show ('-' : Char).toNat = 45 from rfl, show ('~' : Char).toNat = 126 from rfl] at h
  omega

theorem queryChar_good {c : Char} (h : queryChar c = true) : goodChar c = true := by
  simp only [queryChar, Bool.or_eq_true] at h
  rcases h with ((((hs | h) | h) | h) | h)
  · exact goodChar_of_safe hs
  · simp only [decide_eq_true_eq] at h; subst h; decide
  · simp only [decide_eq_true_eq] at h; subst h; decide
  · simp only [decide_eq_true_eq] at h; subst h; decide
  · simp only [decide_eq_true_eq] at h; subst h; decide

theorem not_mem_of_queryChar {d : Char} (hd : queryChar d = false) {s : PyStr}
    (hs : ∀ c ∈ s, queryChar c = true) : d ∉ s :=
  fun hm => absurd (hs d hm) (by rw [hd]; simp)

theorem schemeOk_chars {s : PyStr} (h : schemeOk s = true) :
    ∀ c ∈ s, isAlphaA c = true ∨ schemeChar c = true := by
  cases s with
  | nil => intro c hc; simp at hc
  | cons x t =>
    simp only [schemeOk, Bool.and_eq_true, List.all_eq_true] at h
    intro c hc
    rcases List.mem_cons.mp hc with rfl | hc
    · exact Or.inl h.1
    · exact Or.inr (h.2 c hc)

theorem splitScheme_no {A : PyStr}
    (hf : ∀ bef aft, splitFirst ':' A = some (bef, aft) → schemeOk bef = false) :
    splitScheme A = ([], A) := by
  rcases splitScheme_shape A with ⟨h1, -⟩ | ⟨bef, aft, hsf, hok, -⟩
  · exact h1
  · rw [hf bef aft hsf] at hok
    exact Bool.noConfusion hok

theorem colonFails_of_head {A : PyStr} {d : Char} (hh : A.head? = some d)
    (hd : isAlphaA d = false) :
    ∀ bef aft, splitFirst ':' A = some (bef, aft) → schemeOk bef = false := by
  intro bef aft hs
  obtain ⟨hA, -⟩ := splitFirst_eq_some hs
  cases bef with
  | nil => rfl
  | cons x t =>
    rw [hA] at hh
    simp only [List.cons_append, List.head?_cons, Option.some.injEq] at hh
    exact schemeOk_false_of_head rfl (hh ▸ hd)

theorem splitScheme_re {s R : PyStr} (hok : schemeOk s = true)
    (hid : s.map lowerAscii = s) : splitScheme (s ++ ':' :: R) = (s, R) := by
  have hnc : ':' ∉ s := by
    intro hm
    rcases schemeOk_chars hok ':' hm with ha | ha <;> exact Bool.noConfusion ha
  rw [splitScheme, splitFirst_append _ _ hnc]
  show (if schemeOk s = true then (s.map lowerAscii, R) else ([], s ++ ':' :: R)) = (s, R)
  rw [if_pos hok, hid]

theorem colonFails_append_qf {P nq frag : PyStr}
    (hP : ∀ bef aft, splitFirst ':' P = some (bef, aft) → schemeOk bef = false) :
    ∀ bef aft, splitFirst ':' (P ++ ((if nq ≠ [] then '?' :: nq else []) ++
      (if frag ≠ [] then '#' :: frag else []))) = some (bef, aft) → schemeOk bef = false := by
  intro bef aft hs
  by_cases hc : ':' ∈ P
  · obtain ⟨a, b, hab⟩ := splitFirst_mem hc
    have hall := splitFirst_append_left ((if nq ≠ [] then '?' :: nq else []) ++
      (if frag ≠ [] then '#' :: frag else [])) hab
    rw [hall] at hs
    simp only [Option.some.injEq, Prod.mk.injEq] at hs
    rw [← hs.1]
    exact hP a b hab
  · rw [splitFirst_append_right _ hc] at hs
    match hin : splitFirst ':' ((if nq ≠ [] then '?' :: nq else []) ++
        (if frag ≠ [] then '#' :: frag else [])) with
    | none => rw [hin] at hs; exact absurd hs (by simp)
    | some p =>
      rw [hin] at hs
      simp only [Option.map_some', Option.some.injEq, Prod.mk.injEq] at hs
      obtain ⟨hx, hq2⟩ := splitFirst_eq_some hin
      by_cases hnq : nq = []
      · by_cases hfr : frag = []
        · rw [if_neg (by simp [hnq]), if_neg (by simp [hfr])] at hin
          simp [splitFirst] at hin
        · rw [if_neg (by simp [hnq]), if_pos hfr] at hx
          simp only [List.nil_append] at hx
          rw [← hs.1]
          cases hp1 : p.1 with
          | nil =>
            rw [hp1] at hx
            simp only [List.nil_append] at hx
            exact absurd hx.symm (by simp)
          | cons x t =>
            rw [hp1] at hx
            have hx0 : x = '#' := by
              have := congrArg List.head? hx
              simp at this
              exact this.symm
            cases hP0 : P with
            | nil =>
              apply schemeOk_false_of_head
              · exact rfl
              · rw [hx0]; decide
            | cons y t2 =>
              apply schemeOk_false_of_tail (d := '#')
              · simp only [List.cons_append, List.tail_cons]
                rw [hx0]
                simp
              · decide
      · rw [if_pos hnq] at hx
        rw [← hs.1]
        cases hp1 : p.1 with
        | nil =>
          rw [hp1] at hx
          simp only [List.nil_append] at hx
          exact absurd hx.symm (by simp)
        | cons x t =>
          rw [hp1] at hx
          have hx0 : x = '?' := by
            have := congrArg List.head? hx
            simp at this
            exact this.symm
          cases hP0 : P with
          | nil =>
            apply schemeOk_false_of_head
            · exact rfl
            · rw [hx0]; decide
          | cons y t2 =>
            apply schemeOk_false_of_tail (d := '?')
            · simp only [List.cons_append, List.tail_cons]
              rw [hx0]
              simp
            · decide

theorem optSplit {sep : Char} {B w : PyStr} (h : sep ∉ B) :
    (match splitFirst sep (B ++ (if w ≠ [] then sep :: w else [])) with
      | some p => p
      | none => (B ++ (if w ≠ [] then sep :: w else []), [])) = (B, w) := by
  by_cases hw : w = []
  · subst hw
    simp only [ne_eq, not_true_eq_false, if_false, List.append_nil]
    rw [splitFirst_eq_none h]
  · rw [if_pos hw, splitFirst_append _ _ h]

theorem filter_eq_self_of_all {p : Char → Bool} : ∀ (l : PyStr), (∀ c ∈ l, p c = true) →
    l.filter p = l := by
  intro l
  induction l with
  | nil => intro _; rfl
  | cons x t ih =>
    intro h
    rw [List.filter_cons_of_pos (h x (List.mem_cons_self _ _)),
      ih (fun c hc => h c (List.mem_cons_of_mem _ hc))]

theorem qf_shape (nq F : PyStr) :
    ((if nq ≠ [] then '?' :: nq else []) ++ (if F ≠ [] then '#' :: F else []) = []) ∨
    ∃ d r, (if nq ≠ [] then '?' :: nq else []) ++ (if F ≠ [] then '#' :: F else []) = d :: r ∧
      (d = '?' ∨ d = '#') := by
  by_cases hq0 : nq = []
  · by_cases hf0 : F = []
    · left
      simp [hq0, hf0]
    · right
      refine ⟨'#', F, ?_, Or.inr rfl⟩
      simp [hq0, hf0]
  · right
    refine ⟨'?', nq ++ (if F ≠ [] then '#' :: F else []), ?_, Or.inl rfl⟩
    simp [hq0]

theorem take2_ne_cons {x : Char} (hx : x ≠ '/') (t : PyStr) :
    (x :: t).take 2 ≠ ['/', '/'] := by
  intro hc
  have hc2 : x :: t.take 1 = ['/', '/'] := hc
  simp only [List.cons.injEq] at hc2
  exact hx hc2.1

theorem take2_ne_cons2 {x y : Char} (hy : y ≠ '/') (t : PyStr) :
    (x :: y :: t).take 2 ≠ ['/', '/'] := by
  intro hc
  have hc2 : ([x, y] : PyStr) = ['/', '/'] := hc
  simp only [List.cons.injEq, and_true] at hc2
  exact hy hc2.2

theorem urlsplit_build {url S rest1 N rest2 B2 F B Q : PyStr}
    (h0 : removeUnsafe url = url)
    (h1 : splitScheme url = (S, rest1))
    (h2 : (if rest1.take 2 = ['/', '/'] then splitNetloc (rest1.drop 2) else ([], rest1)) =
      (N, rest2))
    (h3 : N.contains '[' = N.contains ']')
    (h4 : (match splitFirst '#' rest2 with
      | some p => p
      | none => (rest2, [])) = (B2, F))
    (h5 : (match splitFirst '?' B2 with
      | some p => p
      | none => (B2, [])) = (B, Q)) :
    urlsplit url = .ok ⟨S, N, B, Q, F⟩ := by
  have hfalse : ((N.contains '[' && !(N.contains ']')) ||
      (N.contains ']' && !(N.contains '['))) = false := by
    rw [h3]
    cases N.contains ']' <;> rfl
  rw [urlsplit]
  simp only [h0, h1, h2]
  rw [if_neg (by rw [hfalse]; simp)]
  simp only [h4, h5]

theorem urlparse_build {url : PyStr} {s : SplitResult} (h : urlsplit url = .ok s) :
    ∃ path2 params2,
      urlparse url = .ok ⟨s.scheme, s.netloc, path2, params2, s.query, s.fragment⟩ := by
  by_cases hc : s.scheme ∈ uses_params ∧ ';' ∈ s.path
  · refine ⟨(splitparams s.path).1, (splitparams s.path).2, ?_⟩
    rw [urlparse]
    simp only [h]
    rw [if_pos hc]
  · refine ⟨s.path, [], ?_⟩
    rw [urlparse]
    simp only [h]
    rw [if_neg hc]

theorem reparse_query {u : PyStr} {pr : ParseResult} (hup : urlparse u = .ok pr)
    {nq : PyStr} (hq : ∀ c ∈ nq, queryChar c = true) :
    ∃ path2 params2,
      urlparse (urlunparse ⟨pr.scheme, pr.netloc, pr.path, pr.params, nq, pr.fragment⟩) =
        .ok ⟨pr.scheme, pr.netloc, path2, params2, nq, pr.fragment⟩ := by
  obtain ⟨hSch, hNl, hBr, ⟨hNoH, hNoQ⟩, gS, gN, gP, gF, hF4⟩ := urlparse_facts hup
  obtain ⟨P, hPdef⟩ : ∃ P, paramsPath pr = P := ⟨_, rfl⟩
  rw [hPdef] at hNoH hNoQ gP hF4
  have hQg : ∀ c ∈ nq, goodChar c = true := fun c hc => queryChar_good (hq c hc)
  have hQnoHash : '#' ∉ nq := not_mem_of_queryChar (by decide) hq
  have hout : urlunparse ⟨pr.scheme, pr.netloc, pr.path, pr.params, nq, pr.fragment⟩ =
      urlunsplit pr.scheme pr.netloc P nq pr.fragment := by
    rw [← hPdef]
    rfl
  have key : ∃ B, urlsplit (urlunsplit pr.scheme pr.netloc P nq pr.fragment) =
      .ok ⟨pr.scheme, pr.netloc, B, nq, pr.fragment⟩ := by
    set QF := (if nq ≠ [] then '?' :: nq else []) ++
      (if pr.fragment ≠ [] then '#' :: pr.fragment else []) with hQFdef
    have hqf := qf_shape nq pr.fragment
    rw [← hQFdef] at hqf
    have hQFgood : ∀ c ∈ QF, goodChar c = true := by
      rw [hQFdef]
      intro c hc
      rcases List.mem_append.mp hc with hc | hc
      · revert hc
        split
        · intro hc
          rcases List.mem_cons.mp hc with rfl | hc
          · decide
          · exact hQg c hc
        · intro hc
          simp at hc
      · revert hc
        split
        · intro hc
          rcases List.mem_cons.mp hc with rfl | hc
          · decide
          · exact gF c hc
        · intro hc
          simp at hc
    have hifqHash : '#' ∉ (if nq ≠ [] then '?' :: nq else []) := by
      split
      · intro hm
        rcases List.mem_cons.mp hm with he | hm2
        · exact absurd he (by decide)
        · exact hQnoHash hm2
      · simp
    by_cases hbig : pr.netloc ≠ [] ∨ (P ≠ [] ∧ P.take 2 = ['/', '/'])
    · refine ⟨if P ≠ [] ∧ P.take 1 ≠ ['/'] then '/' :: P else P, ?_⟩
      set PQ := if P ≠ [] ∧ P.take 1 ≠ ['/'] then '/' :: P else P with hPQdef
      have hPQnoHash : '#' ∉ PQ := by
        rw [hPQdef]
        split
        · intro hm
          rcases List.mem_cons.mp hm with he | hm2
          · exact absurd he (by decide)
          · exact hNoH hm2
        · exact hNoH
      have hPQnoQm : '?' ∉ PQ := by
        rw [hPQdef]
        split
        · intro hm
          rcases List.mem_cons.mp hm with he | hm2
          · exact absurd he (by decide)
          · exact hNoQ hm2
        · exact hNoQ
      have hPQgood : ∀ c ∈ PQ, goodChar c = true := by
        rw [hPQdef]
        intro c hc
        revert hc
        split
        · intro hc
          rcases List.mem_cons.mp hc with rfl | hc
          · decide
          · exact gP c hc
        · intro hc
          exact gP c hc
      have hbnd : PQ ++ QF = [] ∨ ∃ e s2, PQ ++ QF = e :: s2 ∧ netlocChar e = false := by
        rw [hPQdef]
        by_cases hc1 : P ≠ [] ∧ P.take 1 ≠ ['/']
        · rw [if_pos hc1]
          exact Or.inr ⟨'/', P ++ QF, rfl, by decide⟩
        · rw [if_neg hc1]
          cases hP0 : P with
          | nil =>
            rcases hqf with hqf0 | ⟨d, r2, hqf1, hd⟩
            · left
              rw [hqf0]
              rfl
            · right
              refine ⟨d, r2, by rw [hqf1]; rfl, ?_⟩
              rcases hd with rfl | rfl <;> decide
          | cons x t =>
            have hx : x = '/' := by
              have h1 : ¬(P.take 1 ≠ ['/']) := by
                intro hne
                exact hc1 ⟨by rw [hP0]; simp, hne⟩
              rw [not_not, hP0] at h1
              have h2 : (x :: t).take 1 = [x] := rfl
              rw [h2] at h1
              simp only [List.cons.injEq, and_true] at h1
              exact h1
            right
            exact ⟨'/', t ++ QF, by rw [hx]; rfl, by decide⟩
      have hOUT : urlunsplit pr.scheme pr.netloc P nq pr.fragment =
          (if pr.scheme ≠ [] then pr.scheme ++ ':' :: ('/' :: '/' :: (pr.netloc ++ PQ))
            else '/' :: '/' :: (pr.netloc ++ PQ)) ++ QF := by
        have h2s : pys "//" = ['/', '/'] := rfl
        simp only [urlunsplit, if_pos hbig, h2s, ← hPQdef, hQFdef]
        by_cases hs0 : pr.scheme = [] <;> by_cases hq0 : nq = [] <;>
          by_cases hf0 : pr.fragment = [] <;>
          simp [hs0, hq0, hf0, List.append_assoc]
      have hCOREgood : ∀ c ∈ ('/' :: '/' :: (pr.netloc ++ PQ) : PyStr), goodChar c = true := by
        intro c hc
        rcases List.mem_cons.mp hc with rfl | hc
        · decide
        · rcases List.mem_cons.mp hc with rfl | hc
          · decide
          · rcases List.mem_append.mp hc with hc | hc
            · exact gN c hc
            · exact hPQgood c hc
      have hgood : ∀ c ∈ urlunsplit pr.scheme pr.netloc P nq pr.fragment,
          goodChar c = true := by
        rw [hOUT]
        intro c hc
        rcases List.mem_append.mp hc with hc | hc
        · revert hc
          split
          · intro hc
            rcases List.mem_append.mp hc with hc | hc
            · exact gS c hc
            · rcases List.mem_cons.mp hc with rfl | hc
              · decide
              · exact hCOREgood c hc
          · intro hc
            exact hCOREgood c hc
        · exact hQFgood c hc
      have h0 : removeUnsafe (urlunsplit pr.scheme pr.netloc P nq pr.fragment) =
          urlunsplit pr.scheme pr.netloc P nq pr.fragment := by
        rw [removeUnsafe]
        exact filter_eq_self_of_all _ hgood
      have h1 : splitScheme (urlunsplit pr.scheme pr.netloc P nq pr.fragment) =
          (pr.scheme, '/' :: '/' :: ((pr.netloc ++ PQ) ++ QF)) := by
        rw [hOUT]
        by_cases hs0 : pr.scheme = []
        · rw [if_neg (by simp [hs0]), hs0]
          have hh : (('/' :: '/' :: (pr.netloc ++ PQ)) ++ QF).head? = some '/' := rfl
          rw [splitScheme_no (colonFails_of_head hh (by decide))]
          rfl
        · rw [if_pos hs0]
          obtain ⟨hok, hid⟩ := hSch hs0
          have hassoc : (pr.scheme ++ ':' :: ('/' :: '/' :: (pr.netloc ++ PQ))) ++ QF =
              pr.scheme ++ ':' :: (('/' :: '/' :: (pr.netloc ++ PQ)) ++ QF) := by
            simp [List.append_assoc]
          rw [hassoc, splitScheme_re hok hid]
          rfl
      have hsplitN : splitNetloc (pr.netloc ++ (PQ ++ QF)) = (pr.netloc, PQ ++ QF) := by
        have htw := takeWhile_append_all hNl hbnd
        rw [splitNetloc, htw.1, htw.2]
      have h2 : (if ('/' :: '/' :: ((pr.netloc ++ PQ) ++ QF)).take 2 = ['/', '/'] then
            splitNetloc (('/' :: '/' :: ((pr.netloc ++ PQ) ++ QF)).drop 2)
          else ([], '/' :: '/' :: ((pr.netloc ++ PQ) ++ QF))) = (pr.netloc, PQ ++ QF) := by
        have hc2 : ('/' :: '/' :: ((pr.netloc ++ PQ) ++ QF)).take 2 = ['/', '/'] := rfl
        have hdrop : ('/' :: '/' :: ((pr.netloc ++ PQ) ++ QF)).drop 2 =
            pr.netloc ++ (PQ ++ QF) := by
          show (pr.netloc ++ PQ) ++ QF = pr.netloc ++ (PQ ++ QF)
          exact List.append_assoc _ _ _
        rw [if_pos hc2, hdrop, hsplitN]
      have hB2noHash : '#' ∉ PQ ++ (if nq ≠ [] then '?' :: nq else []) := by
        intro hm
        rcases List.mem_append.mp hm with hc | hc
        · exact hPQnoHash hc
        · exact hifqHash hc
      have h4 : (match splitFirst '#' (PQ ++ QF) with
          | some p => p
          | none => (PQ ++ QF, [])) =
          (PQ ++ (if nq ≠ [] then '?' :: nq else []), pr.fragment) := by
        have hres : PQ ++ QF = (PQ ++ (if nq ≠ [] then '?' :: nq else [])) ++
            (if pr.fragment ≠ [] then '#' :: pr.fragment else []) := by
          rw [hQFdef, List.append_assoc]
        rw [hres]
        exact optSplit hB2noHash
      have h5 : (match splitFirst '?' (PQ ++ (if nq ≠ [] then '?' :: nq else [])) with
          | some p => p
          | none => (PQ ++ (if nq ≠ [] then '?' :: nq else []), [])) = (PQ, nq) :=
        optSplit hPQnoQm
      exact urlsplit_build h0 h1 h2 hBr h4 h5
    · have hN0 : pr.netloc = [] := by
        by_contra hneg
        exact hbig (Or.inl hneg)
      have hP2 : P ≠ [] → P.take 2 ≠ ['/', '/'] := by
        intro hPne hPt
        exact hbig (Or.inr ⟨hPne, hPt⟩)
      refine ⟨P, ?_⟩
      have hOUT : urlunsplit pr.scheme pr.netloc P nq pr.fragment =
          (if pr.scheme ≠ [] then pr.scheme ++ ':' :: P else P) ++ QF := by
        simp only [urlunsplit, if_neg hbig, hQFdef]
        by_cases hs0 : pr.scheme = [] <;> by_cases hq0 : nq = [] <;>
          by_cases hf0 : pr.fragment = [] <;>
          simp [hs0, hq0, hf0, List.append_assoc]
      have hgood : ∀ c ∈ urlunsplit pr.scheme pr.netloc P nq pr.fragment,
          goodChar c = true := by
        rw [hOUT]
        intro c hc
        rcases List.mem_append.mp hc with hc | hc
        · revert hc
          split
          · intro hc
            rcases List.mem_append.mp hc with hc | hc
            · exact gS c hc
            · rcases List.mem_cons.mp hc with rfl | hc
              · decide
              · exact gP c hc
          · intro hc
            exact gP c hc
        · exact hQFgood c hc
      have h0 : removeUnsafe (urlunsplit pr.scheme pr.netloc P nq pr.fragment) =
          urlunsplit pr.scheme pr.netloc P nq pr.fragment := by
        rw [removeUnsafe]
        exact filter_eq_self_of_all _ hgood
      have h1 : splitScheme (urlunsplit pr.scheme pr.netloc P nq pr.fragment) =
          (pr.scheme, P ++ QF) := by
        rw [hOUT]
        by_cases hs0 : pr.scheme = []
        · rw [if_neg (by simp [hs0]), hs0]
          have hfail := @colonFails_append_qf P nq pr.fragment (hF4 hs0 hN0)
          rw [hQFdef]
          rw [splitScheme_no hfail]
        · rw [if_pos hs0]
          obtain ⟨hok, hid⟩ := hSch hs0
          have hassoc : (pr.scheme ++ ':' :: P) ++ QF = pr.scheme ++ ':' :: (P ++ QF) := by
            simp [List.append_assoc]
          rw [hassoc, splitScheme_re hok hid]
      have htk : (P ++ QF).take 2 ≠ ['/', '/'] := by
        cases hP0 : P with
        | nil =>
          rcases hqf with hqf0 | ⟨d, r2, hqf1, hd⟩
          · rw [hqf0]
            simp
          · rw [hqf1]
            show (d :: r2).take 2 ≠ ['/', '/']
            apply take2_ne_cons
            rcases hd with rfl | rfl <;> decide
        | cons x t =>
          cases t with
          | nil =>
            rcases hqf with hqf0 | ⟨d, r2, hqf1, hd⟩
            · rw [hqf0]
              intro hc
              have hc2 : ([x] : PyStr) = ['/', '/'] := hc
              simp at hc2
            · rw [hqf1]
              show (x :: d :: r2).take 2 ≠ ['/', '/']
              apply take2_ne_cons2
              rcases hd with rfl | rfl <;> decide
          | cons y t2 =>
            show (x :: y :: (t2 ++ QF)).take 2 ≠ ['/', '/']
            have hPt := hP2 (by rw [hP0]; simp)
            rw [hP0] at hPt
            intro hcon
            apply hPt
            have e2 : (x :: y :: (t2 ++ QF)).take 2 = [x, y] := rfl
            have e3 : (x :: y :: t2).take 2 = [x, y] := rfl
            rw [e3, ← e2, hcon]
      have h2 : (if (P ++ QF).take 2 = ['/', '/'] then splitNetloc ((P ++ QF).drop 2)
          else ([], P ++ QF)) = (pr.netloc, P ++ QF) := by
        rw [if_neg htk, hN0]
      have hB2noHash : '#' ∉ P ++ (if nq ≠ [] then '?' :: nq else []) := by
        intro hm
        rcases List.mem_append.mp hm with hc | hc
        · exact hNoH hc
        · exact hifqHash hc
      have h4 : (match splitFirst '#' (P ++ QF) with
          | some p => p
          | none => (P ++ QF, [])) =
          (P ++ (if nq ≠ [] then '?' :: nq else []), pr.fragment) := by
        have hres : P ++ QF = (P ++ (if nq ≠ [] then '?' :: nq else [])) ++
            (if pr.fragment ≠ [] then '#' :: pr.fragment else []) := by
          rw [hQFdef, List.append_assoc]
        rw [hres]
        exact optSplit hB2noHash
      have h5 : (match splitFirst '?' (P ++ (if nq ≠ [] then '?' :: nq else [])) with
          | some p => p
          | none => (P ++ (if nq ≠ [] then '?' :: nq else []), [])) = (P, nq) :=
        optSplit hNoQ
      exact urlsplit_build h0 h1 h2 hBr h4 h5
  obtain ⟨B, hsplit⟩ := key
  rw [← hout] at hsplit
  obtain ⟨p2, q2, hpp⟩ := urlparse_build hsplit
  exact ⟨p2, q2, hpp⟩

theorem decoded_merge {url m : PyStr} {qd : List (PyStr × QVal)}
    (hm : merge_query_to_url url qd = .ok m) :
    ∃ pr, urlparse url = .ok pr ∧
      decodedPairsD m =
        ((setList ((parse_qsl pr.query).map (fun q => (q.1, QVal.str q.2)) ++ qd)).filter
          (fun p => !(pyStr p.2).isEmpty)).map (fun p => (p.1, pyStr p.2)) := by
  rw [merge_query_to_url] at hm
  cases hup : urlparse url with
  | error e =>
    simp only [hup] at hm
    exact absurd hm (by simp)
  | ok pr =>
    simp only [hup] at hm
    refine ⟨pr, rfl, ?_⟩
    cases hf : qd.find? (fun p => match p.2 with | .invalid _ => true | _ => false) with
    | some p0 =>
      simp only [hf] at hm
      exact absurd hm (by simp)
    | none =>
      simp only [hf] at hm
      simp only [Except.ok.injEq] at hm
      subst hm
      have hqc : ∀ c ∈ urlencode (setList
          ((parse_qsl pr.query).map (fun q => (q.1, QVal.str q.2)) ++ qd)),
          queryChar c = true := fun c hc => urlencode_chars hc
      obtain ⟨p2, q2, hre⟩ := reparse_query hup hqc
      rw [decodedPairsD]
      simp only [hre]
      exact parse_qsl_urlencode _

theorem not_isEmpty_iff_ne {l : PyStr} : (!l.isEmpty) = true ↔ l ≠ [] := by
  cases l with
  | nil => simp
  | cons x t => simp

theorem mem_decoded_merge {url m : PyStr} {qd : List (PyStr × QVal)}
    (hm : merge_query_to_url url qd = .ok m) (x : PyStr × PyStr) :
    x ∈ decodedPairsD m ↔
      ((x ∈ decodedPairsD url ∨ ∃ p ∈ qd, x = (p.1, pyStr p.2)) ∧ x.2 ≠ []) := by
  obtain ⟨pr, hup, hD⟩ := decoded_merge hm
  have hDurl : decodedPairsD url = parse_qsl pr.query := by
    rw [decodedPairsD]
    simp only [hup]
  rw [hD, hDurl]
  constructor
  · intro hx
    rw [List.mem_map] at hx
    obtain ⟨p, hp, hfp⟩ := hx
    rw [List.mem_filter] at hp
    obtain ⟨hpmem, hpg⟩ := hp
    rw [mem_setList, List.mem_append] at hpmem
    have hx2 : x.2 ≠ [] := by
      rw [← hfp]
      exact not_isEmpty_iff_ne.mp hpg
    refine ⟨?_, hx2⟩
    rcases hpmem with hpmem | hpmem
    · left
      rw [List.mem_map] at hpmem
      obtain ⟨q, hq, hsq⟩ := hpmem
      have hxq : x = q := by
        rw [← hsq] at hfp
        exact hfp.symm.trans Prod.mk.eta
      rw [hxq]
      exact hq
    · right
      exact ⟨p, hpmem, hfp.symm⟩
  · rintro ⟨hor, hx2⟩
    rw [List.mem_map]
    rcases hor with hx | ⟨p, hp, hxe⟩
    · refine ⟨(x.1, QVal.str x.2), ?_, ?_⟩
      · rw [List.mem_filter]
        refine ⟨?_, ?_⟩
        · rw [mem_setList, List.mem_append]
          left
          rw [List.mem_map]
          exact ⟨x, hx, rfl⟩
        · exact not_isEmpty_iff_ne.mpr hx2
      · exact Prod.mk.eta
    · refine ⟨p, ?_, ?_⟩
      · rw [List.mem_filter]
        refine ⟨?_, ?_⟩
        · rw [mem_setList, List.mem_append]
          right
          exact hp
        · apply not_isEmpty_iff_ne.mpr
          intro he
          apply hx2
          rw [hxe]
          exact he
      · exact hxe.symm

/-- An argument annotated `str` in request.py but checked with
    `isinstance(..., str)` at run time; `nonStr` stands for a value of any
    other type (its identity never reaches an error message). -/
inductive StrArg
  | str (s : PyStr)
  | nonStr
deriving DecidableEq

/-- The `data` argument of `http_request`: `str | bytes | bytearray`, or a
    value of any other type (`invalid`), which the isinstance check
    rejects. -/
inductive DataArg
  | str (s : PyStr)
  | bytes (b : List Nat)
  | bytearray (b : List Nat)
  | invalid
deriving DecidableEq

/-- The `json_` argument, reduced to the only thing `http_request` observes
    of it: `json.dumps(json_).encode("utf-8")` either yields bytes or
    raises (`unserializable`). -/
inductive JsonArg
  | ok (b : List Nat)
  | unserializable
deriving DecidableEq

/-- The request `urllib.request.urlopen` is given: final url, upper-cased
    method, the prepared header dict, and the body bytes. -/
structure NetReq where
  url : PyStr
  method : PyStr
  headers : List (PyStr × PyStr)
  data : Option (List Nat)
deriving DecidableEq

/-- The network's answer, as the four except-branches of `http_request`
    distinguish it: a normal response (`version` the int
    `HTTPResponse.version`), an `HTTPError` (whose status may be `None`), a
    `URLError` (carrying `str(e.reason)`), or any other exception
    (carrying `str(e)`). -/
inductive NetOutcome
  | success (version : Nat) (status : Nat) (reason : PyStr)
      (headers : List (PyStr × PyStr)) (content : List Nat)
  | httpError (status : Option Nat) (reason : PyStr)
      (headers : List (PyStr × PyStr)) (content : List Nat)
  | urlError (reason : PyStr)
  | otherError (msg : PyStr)
deriving DecidableEq

/-- `VERSION_MAP.get(version, "HTTP/1.1")` of request.py. -/
def versionStr (v : Nat) : PyStr :=
  if v = 10 then pys "HTTP/1.0"
  else if v = 11 then pys "HTTP/1.1"
  else if v = 20 then pys "HTTP/2"
  else pys "HTTP/1.1"

/-- `HTTP_METHODS` of request.py. -/
def HTTP_METHODS : List PyStr :=
  [pys "GET", pys "POST", pys "PUT", pys "PATCH", pys "DELETE"]

/-- Python `str(HTTP_METHODS)`, as interpolated into the two method error
    messages. -/
def METHODS_STR : PyStr :=
  pys "[\x27GET\x27, \x27POST\x27, \x27PUT\x27, \x27PATCH\x27, \x27DELETE\x27]"

/-- Python `str(n)` for a natural number. -/
def natStr (n : Nat) : PyStr := (toString n).toList

/-- `http_request` of request.py over a network oracle `net`: default the
    headers, check the method is a string and (upper-cased, ASCII model)
    one of `HTTP_METHODS`, check the url is a string, reject `data` and
    `json_` together, merge the query (re-raising an `ArgumentError` as is
    and wrapping any other failure as `Failed to splicing URL and query`),
    encode the body, prepend `https://` when the url has neither prefix,
    and dispatch, with an `HTTPError` carrying a status turned into a
    `Response` whose version is the literal `"HTTP/1.1"`. -/
def http_request (net : NetReq → NetOutcome) (method : StrArg) (url : StrArg)
    (query : Option (List (PyStr × QVal))) (data : Option DataArg)
    (json_ : Option JsonArg) (headers : Option (List (PyStr × PyStr))) :
    Except PyExc Response :=
  let hs := headers.getD []
  match method with
  | .nonStr => .error (.argumentError
      (pys "http method must be a string, and must be one of " ++ METHODS_STR))
  | .str ms =>
    if (ms.map upperAscii) ∉ HTTP_METHODS then
      .error (.argumentError (pys "Invalid HTTP method: " ++ ms ++
        pys ", must be one of " ++ METHODS_STR))
    else
      match url with
      | .nonStr => .error (.argumentError (pys "URL must be a string"))
      | .str us =>
        if data.isSome ∧ json_.isSome then
          .error (.argumentError
            (pys "Both data and json cannot be provided at the same time"))
        else
          (match query with
            | none => Except.ok us
            | some q =>
              match merge_query_to_url us q with
              | .ok u2 => Except.ok u2
              | .error (.argumentError msg) => Except.error (PyExc.argumentError msg)
              | .error _ => Except.error (PyExc.argumentError
                  (pys "Failed to splicing URL and query"))).bind (fun u1 =>
          (match data with
            | some (.str s) => Except.ok (some (utf8Bytes s))
            | some (.bytes b) => Except.ok (some b)
            | some (.bytearray b) => Except.ok (some b)
            | some .invalid => Except.error (PyExc.argumentError
                (pys "Data must be a string, bytes, or bytearray"))
            | none =>
              match json_ with
              | some (.ok b) => Except.ok (some b)
              | some .unserializable => Except.error (PyExc.argumentError
                  (pys "Failed to serialize JSON data"))
              | none => Except.ok none).bind (fun data_bytes =>
          let u2 := if ¬((pys "http://").isPrefixOf u1) ∧
              ¬((pys "https://").isPrefixOf u1) then pys "https://" ++ u1 else u1
          match net ⟨u2, ms.map upperAscii, hs, data_bytes⟩ with
          | .success v st rs hd ct => Except.ok ⟨u2, versionStr v, st, rs, hd, .bytes ct⟩
          | .httpError none _ _ _ =>
            Except.error (PyExc.requestError (pys "Failed to send request, unknown error"))
          | .httpError (some st) rs hd ct =>
            Except.ok ⟨u2, pys "HTTP/1.1", st, rs, hd, .bytes ct⟩
          | .urlError r =>
            Except.error (PyExc.requestError (pys "Failed to send request, " ++ r))
          | .otherError me =>
            Except.error (PyExc.requestError (pys "Failed to send request, " ++ me))))

/-- The `return_content` selector of `format_response_result`. -/
inductive ReturnContent
  | raw
  | basic_clean
  | strict_clean
  | markdown
deriving DecidableEq

/-- The two uses of `clean_html` and the use of `html_to_markdown` from
    utils.py, a module outside src/.  Modelled from the spec: the
    transformers are opaque total string functions injected as parameters;
    nothing proved below depends on their behaviour. -/
structure Transformers where
  clean_basic : PyStr → PyStr
  clean_strict : PyStr → PyStr
  to_markdown : PyStr → PyStr

/-- Python `"\r\n".join(l)`. -/
def joinCRLF : List PyStr → PyStr
  | [] => []
  | [s] => s
  | s :: rest => s ++ pys "\r\n" ++ joinCRLF rest

/-- `format_response_result` of request.py: refuse content types starting
    neither with `text/` nor `application/json`; decode a bytes body as
    strict UTF-8, failing with a `ResponseError` whose message ends in the
    stray apostrophe of the source f-string and whose `reason` is `None`;
    apply the selected html transform for `text/html`; then join the
    status line, the optional header block, the `"\r\n\r\n"` separator and
    the body (each element built with its own trailing `"\r\n"` as in the
    source) with `"\r\n"`.  In this model headers are strings, so
    `content_type` is always a str, and `str(content)` on an already-str
    body cannot fail: the isinstance fallback and the second except branch
    of the source are unreachable. -/
def format_response_result (T : Transformers) (response : Response)
    (format_headers : Option Bool) (return_content : ReturnContent) :
    Except PyExc PyStr :=
  let content_type := response.content_type
  if (pys "text/").isPrefixOf content_type ∨
      (pys "application/json").isPrefixOf content_type then
    (match response.content with
      | .bytes b =>
        match utf8DecodeAll b with
        | some s => Except.ok s
        | none => Except.error (PyExc.responseError response
            (pys "response content type is \x22" ++ content_type ++
              pys "\x22, but not utf-8 encoded\x27") none)
      | .str s => Except.ok s).bind (fun content =>
      let content2 := if (pys "text/html").isPrefixOf content_type then
          match return_content with
          | .raw => content
          | .basic_clean => T.clean_basic content
          | .strict_clean => T.clean_strict content
          | .markdown => T.to_markdown content
        else content
      let strs := [response.version ++ pys " " ++ natStr response.status_code ++
          pys " " ++ response.reason ++ pys "\r\n"] ++
        (if format_headers.getD false then
          [joinCRLF (response.headers.map (fun p : PyStr × PyStr => p.1 ++ pys ": " ++ p.2))]
        else []) ++
        [pys "\r\n\r\n", content2 ++ pys "\r\n"]
      Except.ok (joinCRLF strs))
  else
    Except.error (PyExc.responseError response
      (pys "response content type is \x22" ++ content_type ++
        pys "\x22, cannot be converted to a string") none)

/-- `format_error_result` of request.py: its four branches (ArgumentError,
    RequestError, ResponseError, anything else), each a fixed text block;
    for a `ResponseError` a falsy `reason` (None or the empty string)
    selects the generic clause.  The function is total over all modelled
    exception values. -/
def format_error_result (error : PyExc) : PyStr :=
  match error with
  | .argumentError msg =>
    pys "HTTP/1.1 500 MCP Service Internal Error, invalid argument\r\n" ++
    pys "Content-Type: text/plain\r\n\r\n" ++
    pys "MCP service found an error while checking parameters:\r\n" ++
    msg ++ pys "\r\n"
  | .requestError msg =>
    pys "HTTP/1.1 500 MCP Service Internal Error\r\n" ++
    pys "Content-Type: text/plain\r\n\r\n" ++
    pys "the MCP service encountered an internal error when making a request, with the following error message:\r\n" ++
    msg
  | .responseError resp msg reason =>
    let err_reason := match reason with
      | some r => if r ≠ [] then pys ", but " ++ r
          else pys ", but there was an error when processing the response"
      | none => pys ", but there was an error when processing the response"
    resp.version ++ pys " " ++ natStr resp.status_code ++ pys " " ++ resp.reason ++
    err_reason ++ pys "\r\n" ++
    pys "Content-Type: text/plain\r\n\r\n" ++
    pys "The request sent has successfully received a response, but an error occurred during the processing of the response." ++
    pys " The error message is as follows:\r\n" ++ msg
  | .valueError _ =>
    pys "HTTP/1.1 500 MCP Service Internal Error\r\n" ++
    pys "Content-Type: text/plain\r\n\r\n" ++
    pys "An unexpected error occurred in the MCP service."
  | .otherError _ =>
    pys "HTTP/1.1 500 MCP Service Internal Error\r\n" ++
    pys "Content-Type: text/plain\r\n\r\n" ++
    pys "An unexpected error occurred in the MCP service."

/-- Python `k in d` for a dict: exact (case sensitive) key equality. -/
def dictIn (k : PyStr) (d : List (PyStr × PyStr)) : Bool := d.any (fun p => p.1 == k)

/-- Python dict assignment `d[k] = v`: overwrite in place when the key is
    present, else append. -/
def dictSet (d : List (PyStr × PyStr)) (k v : PyStr) : List (PyStr × PyStr) :=
  if d.any (fun p => p.1 == k) then d.map (fun p => if p.1 == k then (k, v) else p)
  else d ++ [(k, v)]

/-- Python `d.update(e)`. -/
def dictUpdate (d e : List (PyStr × PyStr)) : List (PyStr × PyStr) :=
  e.foldl (fun acc p => dictSet acc p.1 p.2) d

/-- The header preparation of `mcp_http_request` (request.py lines
    264-274): start from `{}`, merge the caller's headers, then set
    `User-Agent`: when the force flag is truthy, whenever `user_agent` is
    truthy; otherwise only when the exact key `"User-Agent"` is absent and
    `user_agent` is truthy. -/
def build_headers (headers : Option (List (PyStr × PyStr))) (user_agent : Option PyStr)
    (force_user_agnet : Option Bool) : List (PyStr × PyStr) :=
  let hs := dictUpdate [] (headers.getD [])
  if force_user_agnet.getD false then
    match user_agent with
    | some ua => if ua ≠ [] then dictSet hs (pys "User-Agent") ua else hs
    | none => hs
  else
    match user_agent with
    | some ua => if ¬(dictIn (pys "User-Agent") hs = true) ∧ ua ≠ [] then
        dictSet hs (pys "User-Agent") ua else hs
    | none => hs

/-- `mcp_http_request` of request.py: prepare the headers, run
    `http_request` and `format_response_result`, and render any raised
    exception with `format_error_result` (the try/except of lines
    276-287). -/
def mcp_http_request (net : NetReq → NetOutcome) (T : Transformers)
    (method url : StrArg) (query : Option (List (PyStr × QVal)))
    (data : Option DataArg) (json : Option JsonArg)
    (headers : Option (List (PyStr × PyStr))) (user_agent : Option PyStr)
    (force_user_agnet : Option Bool) (format_headers : Bool)
    (return_content : ReturnContent) : PyStr :=
  match http_request net method url query data json
      (some (build_headers headers user_agent force_user_agnet)) with
  | .error e => format_error_result e
  | .ok response =>
    match format_response_result T response (some format_headers) return_content with
    | .ok s => s
    | .error e => format_error_result e

/-- Identity transformers, for concrete evaluations. -/
def T0 : Transformers := ⟨id, id, id⟩

/-- A network returning HTTP 404 with a JSON body, for concrete
    evaluations. -/
def net404 : NetReq → NetOutcome := fun _ =>
  .httpError (some 404) (pys "Not Found")
    [(pys "Content-Type", pys "application/json")]
    (utf8Bytes (pys "\x7b\x22error\x22: \x22not found\x22\x7d"))

/-- A response whose body bytes are not valid UTF-8, for concrete
    evaluations. -/
def R4 : Response :=
  ⟨pys "https://example.com", pys "HTTP/1.1", 200, pys "OK",
    [(pys "Content-Type", pys "text/plain")], .bytes [255]⟩

/-- A small well-formed text response, for concrete evaluations. -/
def R5 : Response :=
  ⟨pys "https://example.com", pys "HTTP/1.1", 200, pys "OK",
    [(pys "Content-Type", pys "text/plain")], .str (pys "hi")⟩

theorem dictSet_absent {d : List (PyStr × PyStr)} {k : PyStr}
    (h : d.any (fun p => p.1 == k) = false) (v : PyStr) :
    dictSet d k v = d ++ [(k, v)] := by
  rw [dictSet, if_neg (by rw [h]; simp)]

theorem dictUpdate_all_absent : ∀ (e acc : List (PyStr × PyStr)),
    (∀ p ∈ e, acc.any (fun q => q.1 == p.1) = false) →
    (e.map Prod.fst).Nodup →
    dictUpdate acc e = acc ++ e := by
  intro e
  induction e with
  | nil =>
    intro acc _ _
    simp [dictUpdate]
  | cons p t ih =>
    intro acc hab hnd
    have hstep : dictSet acc p.1 p.2 = acc ++ [p] := by
      rw [dictSet_absent (hab p (List.mem_cons_self _ _)) p.2, Prod.mk.eta]
    have hnd2 : (t.map Prod.fst).Nodup := by
      rw [List.map_cons, List.nodup_cons] at hnd
      exact hnd.2
    have hp1 : p.1 ∉ t.map Prod.fst := by
      rw [List.map_cons, List.nodup_cons] at hnd
      exact hnd.1
    have hab2 : ∀ q ∈ t, (acc ++ [p]).any (fun r => r.1 == q.1) = false := by
      intro q hq
      rw [List.any_append]
      have h1 : acc.any (fun r => r.1 == q.1) = false := hab q (List.mem_cons_of_mem _ hq)
      have h2 : (p.1 == q.1) = false := by
        rw [beq_eq_false_iff_ne]
        intro he
        apply hp1
        rw [he]
        exact List.mem_map_of_mem Prod.fst hq
      rw [h1]
      simp [List.any_cons, h2]
    have hfold : dictUpdate acc (p :: t) = dictUpdate (dictSet acc p.1 p.2) t := rfl
    rw [hfold, hstep, ih (acc ++ [p]) hab2 hnd2, List.append_assoc]
    rfl

theorem dictUpdate_nil_eq {hs : List (PyStr × PyStr)} (h : (hs.map Prod.fst).Nodup) :
    dictUpdate [] hs = hs := by
  have := dictUpdate_all_absent hs [] (by intro p _; rfl) h
  simpa using this

/-- C10: with the force flag unset, the guard that adds the default
    `User-Agent` tests the literal key `"User-Agent"` case sensitively: a
    caller header map (with distinct keys) carrying a user-agent entry
    under a differently-cased key, none of whose keys is exactly
    `"User-Agent"`, keeps that entry and gains a separate `"User-Agent"`
    entry when `user_agent` is non-empty; and with the force flag set but
    `user_agent` empty or absent, the caller's headers pass through
    unchanged. -/
theorem C10_user_agent_case_and_force {hs : List (PyStr × PyStr)} {k v ua : PyStr}
    (hnd : (hs.map Prod.fst).Nodup) (hmem : (k, v) ∈ hs)
    (hlow : k.map lowerAscii = pys "user-agent") (hk : k ≠ pys "User-Agent")
    (habs : dictIn (pys "User-Agent") hs = false) (hua : ua ≠ []) :
    ((k, v) ∈ build_headers (some hs) (some ua) none ∧
      (pys "User-Agent", ua) ∈ build_headers (some hs) (some ua) none) ∧
    build_headers (some hs) none (some true) = hs ∧
    build_headers (some hs) (some []) (some true) = hs := by
  have hupd : dictUpdate [] hs = hs := dictUpdate_nil_eq hnd
  have hb : build_headers (some hs) (some ua) none = hs ++ [(pys "User-Agent", ua)] := by
    simp [build_headers, hupd, habs, hua, dictSet_absent habs]
  refine ⟨⟨?_, ?_⟩, ?_, ?_⟩
  · rw [hb]
    exact List.mem_append.mpr (Or.inl hmem)
  · rw [hb]
    exact List.mem_append.mpr (Or.inr (List.mem_singleton.mpr rfl))
  · simp [build_headers, hupd]
  · simp [build_headers, hupd]

theorem C10_witness :
    ((pys "user-agent", pys "curl") ∈ build_headers
        (some [(pys "user-agent", pys "curl"), (pys "Accept", pys "a")])
        (some (pys "UA1")) none ∧
      (pys "User-Agent", pys "UA1") ∈ build_headers
        (some [(pys "user-agent", pys "curl"), (pys "Accept", pys "a")])
        (some (pys "UA1")) none) ∧
    build_headers (some [(pys "user-agent", pys "curl"), (pys "Accept", pys "a")])
      none (some true) = [(pys "user-agent", pys "curl"), (pys "Accept", pys "a")] ∧
    build_headers (some [(pys "user-agent", pys "curl"), (pys "Accept", pys "a")])
      (some []) (some true) = [(pys "user-agent", pys "curl"), (pys "Accept", pys "a")] :=
  C10_user_agent_case_and_force (by decide) (by decide) (by decide) (by decide)
    (by decide) (by decide)

/-- C1: `mcp_http_request` always returns a string: its output is either
    the successful render of the response, or `format_error_result`
    applied to the exception arising in validation, query merge or
    dispatch (`http_request`) or in rendering (`format_response_result`);
    the formatter itself is a total function of the exception value. -/
theorem C1_total_output (net : NetReq → NetOutcome) (T : Transformers)
    (method url : StrArg) (query : Option (List (PyStr × QVal)))
    (data : Option DataArg) (json : Option JsonArg)
    (headers : Option (List (PyStr × PyStr))) (user_agent : Option PyStr)
    (force_user_agnet : Option Bool) (format_headers : Bool)
    (return_content : ReturnContent) :
    (∃ resp out,
      http_request net method url query data json
        (some (build_headers headers user_agent force_user_agnet)) = .ok resp ∧
      format_response_result T resp (some format_headers) return_content = .ok out ∧
      mcp_http_request net T method url query data json headers user_agent
        force_user_agnet format_headers return_content = out) ∨
    (∃ e,
      (http_request net method url query data json
        (some (build_headers headers user_agent force_user_agnet)) = .error e ∨
      ∃ resp,
        http_request net method url query data json
          (some (build_headers headers user_agent force_user_agnet)) = .ok resp ∧
        format_response_result T resp (some format_headers) return_content = .error e) ∧
      mcp_http_request net T method url query data json headers user_agent
        force_user_agnet format_headers return_content = format_error_result e) := by
  cases hh : http_request net method url query data json
      (some (build_headers headers user_agent force_user_agnet)) with
  | error e =>
    right
    refine ⟨e, Or.inl rfl, ?_⟩
    rw [mcp_http_request]
    simp only [hh]
  | ok resp =>
    cases hf : format_response_result T resp (some format_headers) return_content with
    | error e =>
      right
      refine ⟨e, Or.inr ⟨resp, rfl, hf⟩, ?_⟩
      rw [mcp_http_request]
      simp only [hh, hf]
    | ok out =>
      left
      refine ⟨resp, out, rfl, hf, ?_⟩
      rw [mcp_http_request]
      simp only [hh, hf]

/-- C7: supplying both `data` and `json` always fails with an
    `ArgumentError`, and the outcome does not depend on the network
    oracle: no request is dispatched. -/
theorem C7_data_json_exclusive (net net2 : NetReq → NetOutcome) (method url : StrArg)
    (query : Option (List (PyStr × QVal))) (headers : Option (List (PyStr × PyStr)))
    (d : DataArg) (j : JsonArg) :
    (∃ msg, http_request net method url query (some d) (some j) headers =
      .error (.argumentError msg)) ∧
    http_request net method url query (some d) (some j) headers =
      http_request net2 method url query (some d) (some j) headers := by
  cases method with
  | nonStr => exact ⟨⟨_, rfl⟩, rfl⟩
  | str ms =>
    by_cases hm : (ms.map upperAscii) ∉ HTTP_METHODS
    · have key : ∀ (n : NetReq → NetOutcome),
          http_request n (.str ms) url query (some d) (some j) headers =
            .error (.argumentError (pys "Invalid HTTP method: " ++ ms ++
              pys ", must be one of " ++ METHODS_STR)) := by
        intro n
        simp only [http_request]
        rw [if_pos hm]
      exact ⟨⟨_, key net⟩, (key net).trans (key net2).symm⟩
    · cases url with
      | nonStr =>
        have key : ∀ (n : NetReq → NetOutcome),
            http_request n (.str ms) .nonStr query (some d) (some j) headers =
              .error (.argumentError (pys "URL must be a string")) := by
          intro n
          simp only [http_request]
          rw [if_neg hm]
        exact ⟨⟨_, key net⟩, (key net).trans (key net2).symm⟩
      | str us =>
        have key : ∀ (n : NetReq → NetOutcome),
            http_request n (.str ms) (.str us) query (some d) (some j) headers =
              .error (.argumentError
                (pys "Both data and json cannot be provided at the same time")) := by
          intro n
          simp only [http_request]
          rw [if_neg hm, if_pos ⟨rfl, rfl⟩]
        exact ⟨⟨_, key net⟩, (key net).trans (key net2).symm⟩

/-- A response with a non-text, non-JSON content type, for concrete
    evaluations. -/
def R6 : Response :=
  ⟨pys "https://example.com", pys "HTTP/1.1", 200, pys "OK",
    [(pys "Content-Type", pys "application/octet-stream")], .bytes [1, 2, 3]⟩

/-- C6: a content type starting neither with `text/` nor with
    `application/json` always makes `format_response_result` fail with the
    `ResponseError` reporting the type as unsupported; no rendered body is
    ever produced for such a response. -/
theorem C6_unsupported_content_type {T : Transformers} {resp : Response}
    {fh : Option Bool} {rc : ReturnContent}
    (h1 : (pys "text/").isPrefixOf resp.content_type = false)
    (h2 : (pys "application/json").isPrefixOf resp.content_type = false) :
    format_response_result T resp fh rc =
      .error (.responseError resp
        (pys "response content type is \x22" ++ resp.content_type ++
          pys "\x22, cannot be converted to a string") none) := by
  simp only [format_response_result]
  rw [if_neg (by rw [h1, h2]; simp)]

theorem C6_witness :
    ((pys "text/").isPrefixOf (Response.content_type R6) = false ∧
      (pys "application/json").isPrefixOf (Response.content_type R6) = false) ∧
    format_response_result T0 R6 (some true) .raw =
      .error (.responseError R6
        (pys "response content type is \x22" ++ Response.content_type R6 ++
          pys "\x22, cannot be converted to a string") none) :=
  ⟨⟨by decide, by decide⟩, C6_unsupported_content_type (by decide) (by decide)⟩

/-- C4 (amended): a text or JSON content type whose body bytes are not
    valid UTF-8 fails with a `ResponseError` whose `reason` field is
    `None` — not the string `"not utf-8 encoded"` — and whose message is
    the source f-string, stray trailing apostrophe included. -/
theorem C4_utf8_failure_reason_none {T : Transformers} {resp : Response}
    {fh : Option Bool} {rc : ReturnContent} {b : List Nat}
    (hct : (pys "text/").isPrefixOf resp.content_type = true ∨
      (pys "application/json").isPrefixOf resp.content_type = true)
    (hbody : resp.content = .bytes b)
    (hbad : utf8DecodeAll b = none) :
    format_response_result T resp fh rc =
      .error (.responseError resp
        (pys "response content type is \x22" ++ resp.content_type ++
          pys "\x22, but not utf-8 encoded\x27") none) := by
  simp only [format_response_result]
  rw [if_pos hct]
  simp only [hbody, hbad, Except.bind]

theorem C4_witness :
    (((pys "text/").isPrefixOf (Response.content_type R4) = true ∨
      (pys "application/json").isPrefixOf (Response.content_type R4) = true) ∧
      Response.content R4 = .bytes [255] ∧ utf8DecodeAll [255] = none) ∧
    format_response_result T0 R4 none .raw =
      .error (.responseError R4
        (pys "response content type is \x22" ++ Response.content_type R4 ++
          pys "\x22, but not utf-8 encoded\x27") none) :=
  ⟨⟨Or.inl (by decide), by decide, by decide⟩,
    @C4_utf8_failure_reason_none T0 R4 none .raw [255]
      (Or.inl (by decide)) (by decide) (by decide)⟩

theorem C4_counterexample :
    format_response_result T0 R4 none .raw =
      .error (.responseError R4
        (pys "response content type is \x22text/plain\x22, but not utf-8 encoded\x27")
        none) ∧
    (match format_response_result T0 R4 none .raw with
      | .error (.responseError _ _ reason) => reason
      | _ => some []) = none ∧
    ¬(match format_response_result T0 R4 none .raw with
      | .error (.responseError _ _ reason) => reason
      | _ => none) = some (pys "not utf-8 encoded") := by decide

theorem render_layout_core (T : Transformers) (resp : Response) (fh : Bool)
    (content : PyStr) :
    joinCRLF ([resp.version ++ pys " " ++ natStr resp.status_code ++ pys " " ++
        resp.reason ++ pys "\r\n"] ++
      (if (some fh).getD false then
        [joinCRLF (resp.headers.map (fun p : PyStr × PyStr => p.1 ++ pys ": " ++ p.2))]
      else []) ++ [pys "\r\n\r\n", content ++ pys "\r\n"]) =
      resp.version ++ pys " " ++ natStr resp.status_code ++ pys " " ++ resp.reason ++
      pys "\r\n" ++ pys "\r\n" ++
      (if fh then
        joinCRLF (resp.headers.map (fun p : PyStr × PyStr => p.1 ++ pys ": " ++ p.2)) ++
          pys "\r\n"
      else []) ++
      pys "\r\n\r\n" ++ pys "\r\n" ++ content ++ pys "\r\n" := by
  cases fh
  · simp [joinCRLF, List.append_assoc]
  · simp [joinCRLF, List.append_assoc]

/-- C5 (amended): a successful render is the CRLF-join of the source's
    list elements, each built with its own trailing CRLF: two CRLFs follow
    the status line, the header block (present exactly when
    `format_headers` is true) is followed by four CRLFs before the body,
    and with the header block absent five CRLFs separate the status line
    from the body, which ends in a final CRLF — not a single blank-line
    separator. -/
theorem C5_render_layout {T : Transformers} {resp : Response} {rc : ReturnContent}
    {fh : Bool} {out : PyStr}
    (h : format_response_result T resp (some fh) rc = .ok out) :
    ∃ body, out =
      resp.version ++ pys " " ++ natStr resp.status_code ++ pys " " ++ resp.reason ++
      pys "\r\n" ++ pys "\r\n" ++
      (if fh then
        joinCRLF (resp.headers.map (fun p : PyStr × PyStr => p.1 ++ pys ": " ++ p.2)) ++
          pys "\r\n"
      else []) ++
      pys "\r\n\r\n" ++ pys "\r\n" ++ body ++ pys "\r\n" := by
  simp only [format_response_result] at h
  split at h
  · split at h
    · split at h
      · simp only [Except.bind, Except.ok.injEq] at h
        exact ⟨_, h.symm.trans (render_layout_core T resp fh _)⟩
      · simp only [Except.bind] at h
        exact absurd h (by simp)
    · simp only [Except.bind, Except.ok.injEq] at h
      exact ⟨_, h.symm.trans (render_layout_core T resp fh _)⟩
  · simp at h

theorem C5_witness :
    format_response_result T0 R5 (some true) .raw =
      .ok (pys "HTTP/1.1 200 OK\r\n\r\nContent-Type: text/plain\r\n\r\n\r\n\r\nhi\r\n") ∧
    ∃ body, pys "HTTP/1.1 200 OK\r\n\r\nContent-Type: text/plain\r\n\r\n\r\n\r\nhi\r\n" =
      Response.version R5 ++ pys " " ++ natStr (Response.status_code R5) ++ pys " " ++
      Response.reason R5 ++ pys "\r\n" ++ pys "\r\n" ++
      (if true then
        joinCRLF ((Response.headers R5).map
          (fun p : PyStr × PyStr => p.1 ++ pys ": " ++ p.2)) ++ pys "\r\n"
      else []) ++
      pys "\r\n\r\n" ++ pys "\r\n" ++ body ++ pys "\r\n" :=
  ⟨by decide, @C5_render_layout T0 R5 .raw true
    (pys "HTTP/1.1 200 OK\r\n\r\nContent-Type: text/plain\r\n\r\n\r\n\r\nhi\r\n")
    (by decide)⟩

theorem C5_counterexample :
    format_response_result T0 R5 (some true) .raw =
      .ok (pys "HTTP/1.1 200 OK\r\n\r\nContent-Type: text/plain\r\n\r\n\r\n\r\nhi\r\n") ∧
    format_response_result T0 R5 (some true) .raw ≠
      .ok (pys "HTTP/1.1 200 OK\r\nContent-Type: text/plain\r\n\r\nhi") ∧
    format_response_result T0 R5 (some true) .raw ≠
      .ok (pys "HTTP/1.1 200 OK\r\nContent-Type: text/plain\r\n\r\nhi\r\n") := by decide

/-- C2: when the peer answers with an `HTTPError` carrying a status,
    `http_request` does not fail: it builds a normal `Response` from that
    status, reason, headers and body (with the literal version
    `"HTTP/1.1"`), whatever the status code; concretely, a 404 with a JSON
    body renders to a block opening with the literal
    `HTTP/1.1 404 Not Found` status line. -/
theorem C2_http_error_is_response {net : NetReq → NetOutcome} {st : Nat} {rs : PyStr}
    {hd : List (PyStr × PyStr)} {ct : List Nat} {ms us : PyStr}
    (hnet : ∀ r, net r = .httpError (some st) rs hd ct)
    (hm : (ms.map upperAscii) ∈ HTTP_METHODS) :
    (∀ headers, http_request net (.str ms) (.str us) none none none headers =
      .ok ⟨(if ¬((pys "http://").isPrefixOf us) ∧ ¬((pys "https://").isPrefixOf us) then
          pys "https://" ++ us else us),
        pys "HTTP/1.1", st, rs, hd, .bytes ct⟩) ∧
    (mcp_http_request net404 T0 (.str (pys "GET")) (.str (pys "example.com")) none none
      none none none none true .raw).take 24 = pys "HTTP/1.1 404 Not Found\r\n" := by
  constructor
  · intro headers
    simp only [http_request]
    rw [if_neg (not_not_intro hm), if_neg (by simp)]
    simp only [Except.bind, hnet]
  · decide

theorem C2_witness :
    ((∀ r, net404 r = .httpError (some 404) (pys "Not Found")
        [(pys "Content-Type", pys "application/json")]
        (utf8Bytes (pys "\x7b\x22error\x22: \x22not found\x22\x7d"))) ∧
      ((pys "GET").map upperAscii) ∈ HTTP_METHODS) ∧
    ((∀ headers, http_request net404 (.str (pys "GET")) (.str (pys "example.com")) none
        none none headers =
      .ok ⟨(if ¬((pys "http://").isPrefixOf (pys "example.com")) ∧
            ¬((pys "https://").isPrefixOf (pys "example.com")) then
          pys "https://" ++ pys "example.com" else pys "example.com"),
        pys "HTTP/1.1", 404, pys "Not Found",
        [(pys "Content-Type", pys "application/json")],
        .bytes (utf8Bytes (pys "\x7b\x22error\x22: \x22not found\x22\x7d"))⟩) ∧
    (mcp_http_request net404 T0 (.str (pys "GET")) (.str (pys "example.com")) none none
      none none none none true .raw).take 24 = pys "HTTP/1.1 404 Not Found\r\n") :=
  ⟨⟨fun _ => rfl, by decide⟩, C2_http_error_is_response (fun _ => rfl) (by decide)⟩

/-- C3 (amended): the decoded pair set of a merged url is the union of the
    url's decoded pairs and the stringified new pairs — entries collapse
    exactly when key and stringified value coincide, so two pairs sharing
    a key but differing in value both survive — restricted to pairs whose
    value is non-empty: a pair whose stringified value is empty is dropped
    on re-decode.  The claim's concrete scenario holds: merging `b=2` into
    `example.com/x?a=1` gives a query decoding to exactly
    `("a","1"), ("b","2")`. -/
theorem C3_merge_pair_set {url m : PyStr} {qd : List (PyStr × QVal)}
    (hm : merge_query_to_url url qd = .ok m) :
    (∀ x : PyStr × PyStr, x ∈ decodedPairsD m ↔
      ((x ∈ decodedPairsD url ∨ ∃ p ∈ qd, x = (p.1, pyStr p.2)) ∧ x.2 ≠ [])) ∧
    merge_query_to_url (pys "example.com/x?a=1") [(pys "b", QVal.int 2)] =
      .ok (pys "example.com/x?a=1&b=2") ∧
    decodedPairsD (pys "example.com/x?a=1&b=2") =
      [(pys "a", pys "1"), (pys "b", pys "2")] :=
  ⟨mem_decoded_merge hm, by decide, by decide⟩

theorem C3_witness :
    (∀ x : PyStr × PyStr, x ∈ decodedPairsD (pys "example.com/x?a=1&b=2") ↔
      ((x ∈ decodedPairsD (pys "example.com/x?a=1") ∨
        ∃ p ∈ [(pys "b", QVal.int 2)], x = (p.1, pyStr p.2)) ∧ x.2 ≠ [])) ∧
    merge_query_to_url (pys "example.com/x?a=1") [(pys "b", QVal.int 2)] =
      .ok (pys "example.com/x?a=1&b=2") ∧
    decodedPairsD (pys "example.com/x?a=1&b=2") =
      [(pys "a", pys "1"), (pys "b", pys "2")] :=
  @C3_merge_pair_set (pys "example.com/x?a=1") (pys "example.com/x?a=1&b=2")
    [(pys "b", QVal.int 2)] (by decide)

theorem C3_counterexample :
    merge_query_to_url (pys "example.com/x") [(pys "b", QVal.str [])] =
      .ok (pys "example.com/x?b=") ∧
    decodedPairsD (pys "example.com/x?b=") = [] ∧
    (pys "b", ([] : PyStr)) ∉ decodedPairsD (pys "example.com/x?b=") := by decide

/-- C8: query merge is idempotent on the decoded pair set: merging the
    same query dict into an already-merged url changes no membership in
    the decoded set of (key, value) pairs. -/
theorem C8_merge_idempotent {url m1 m2 : PyStr} {qd : List (PyStr × QVal)}
    (h1 : merge_query_to_url url qd = .ok m1)
    (h2 : merge_query_to_url m1 qd = .ok m2) :
    ∀ x : PyStr × PyStr, x ∈ decodedPairsD m2 ↔ x ∈ decodedPairsD m1 := by
  intro x
  constructor
  · intro hx
    obtain ⟨hor, hx2⟩ := (mem_decoded_merge h2 x).mp hx
    rcases hor with hx1 | ⟨p, hp, hxe⟩
    · exact hx1
    · exact (mem_decoded_merge h1 x).mpr ⟨Or.inr ⟨p, hp, hxe⟩, hx2⟩
  · intro hx1
    obtain ⟨-, hx2⟩ := (mem_decoded_merge h1 x).mp hx1
    exact (mem_decoded_merge h2 x).mpr ⟨Or.inl hx1, hx2⟩

theorem C8_witness :
    ((pys "b", pys "2") ∈ decodedPairsD (pys "example.com/x?a=1&b=2&b=2") ↔
      (pys "b", pys "2") ∈ decodedPairsD (pys "example.com/x?a=1&b=2")) ∧
    ((pys "a", pys "1") ∈ decodedPairsD (pys "example.com/x?a=1&b=2&b=2") ↔
      (pys "a", pys "1") ∈ decodedPairsD (pys "example.com/x?a=1&b=2")) :=
  ⟨@C8_merge_idempotent (pys "example.com/x?a=1") (pys "example.com/x?a=1&b=2")
      (pys "example.com/x?a=1&b=2&b=2") [(pys "b", QVal.int 2)] (by decide) (by decide)
      (pys "b", pys "2"),
    @C8_merge_idempotent (pys "example.com/x?a=1") (pys "example.com/x?a=1&b=2")
      (pys "example.com/x?a=1&b=2&b=2") [(pys "b", QVal.int 2)] (by decide) (by decide)
      (pys "a", pys "1")⟩

/-- C9: pre-existing query parameters with blank values are dropped by the
    parse step of the merge: the decoded query of any merge result
    contains no pair with an empty value, and concretely merging even the
    empty mapping into `example.com/x?a=&b=1` yields `example.com/x?b=1`,
    the blank-valued `a` gone. -/
theorem C9_blank_values_dropped {url m : PyStr} {qd : List (PyStr × QVal)}
    (hm : merge_query_to_url url qd = .ok m) :
    (∀ k : PyStr, (k, ([] : PyStr)) ∉ decodedPairsD m) ∧
    merge_query_to_url (pys "example.com/x?a=&b=1") [] =
      .ok (pys "example.com/x?b=1") := by
  refine ⟨?_, by decide⟩
  intro k hk
  obtain ⟨-, hx2⟩ := (mem_decoded_merge hm _).mp hk
  exact hx2 rfl

theorem C9_witness :
    (∀ k : PyStr, (k, ([] : PyStr)) ∉ decodedPairsD (pys "example.com/x?b=1")) ∧
    merge_query_to_url (pys "example.com/x?a=&b=1") [] =
      .ok (pys "example.com/x?b=1") :=
  @C9_blank_values_dropped (pys "example.com/x?a=&b=1") (pys "example.com/x?b=1") []
    (by decide)
